import Mathlib

/-!
Verification of the hugo-admin cache/publish core against its specification.

This file shallowly embeds the Python source under `src/` (the article cache
database `models/database.py`, the reconciliation service
`services/cache_service.py`, the front-matter parse and excerpt logic of
`utils/blog_parser.py`, and the publish flow of `services/post_service.py`)
as executable Lean definitions, and proves or refutes the frozen claims about
them.

Modelling conventions:
* Python strings are `String` / `List Char`; file modification timestamps are
  `Int` (only equality of timestamps matters to any claim, and SQLite REAL
  stores a Python float exactly, so the number type is irrelevant);
* SQLite rows are records in a Lean list, in rowid order; `INSERT OR REPLACE`
  removes the row with the colliding UNIQUE `file_path` and appends the new
  row, exactly as SQLite reassigns a fresh rowid;
* `json.dumps(..., ensure_ascii=False)` on a list of strings and `json.loads`
  on its output are embedded character by character (`dumpsList`,
  `loadsList`), including the escape table for `"`, `\`, the short control
  escapes and `\u00XX`;
* the SQLite `LIKE` operator is embedded with its default semantics:
  `%` and `_` wildcards and ASCII case insensitivity (`likeMatch`).
-/

/-! ### Character helpers -/

/-- The double-quote character `"` (written via its code point to keep the
embedding free of delicate literals). -/
def quoteC : Char := Char.ofNat 34

/-- The backslash character `\`. -/
def backslashC : Char := Char.ofNat 92

/-- The backtick character. -/
def backtickC : Char := Char.ofNat 96

/-- ASCII uppercasing, as SQLite applies it inside default `LIKE`
comparisons: `a`-`z` map to `A`-`Z`, everything else is unchanged. -/
def upperAscii (c : Char) : Char :=
  if 97 ≤ c.toNat ∧ c.toNat ≤ 122 then Char.ofNat (c.toNat - 32) else c

/-- Plain list-of-characters prefix test, modelling Python
`str.startswith` restricted to the character lists of the two strings. -/
def listPre : List Char → List Char → Bool
  | [], _ => true
  | _ :: _, [] => false
  | a :: as, b :: bs => a = b && listPre as bs

/-! ### Python `json.dumps` on a list of strings (`models/database.py`
serialises `tags` and `categories` with
`json.dumps(post_data.get(..., []), ensure_ascii=False)`). -/

/-- Lowercase hexadecimal digit for `n < 16`, as CPython json emits in
`\u00XX` escapes. -/
def hexDigitChar (n : Nat) : Char :=
  if n < 10 then Char.ofNat (48 + n) else Char.ofNat (87 + n)

/-- The escape of one character inside a JSON string literal, as produced by
CPython `json.dumps` with `ensure_ascii=False`: `"` and `\` get a backslash,
the five named control characters get short escapes, the remaining code
points below 32 get `\u00XX`, everything else is emitted verbatim. -/
def escChar (c : Char) : List Char :=
  if c = quoteC then [backslashC, quoteC]
  else if c = backslashC then [backslashC, backslashC]
  else if c = Char.ofNat 10 then [backslashC, 'n']
  else if c = Char.ofNat 9 then [backslashC, 't']
  else if c = Char.ofNat 13 then [backslashC, 'r']
  else if c = Char.ofNat 8 then [backslashC, 'b']
  else if c = Char.ofNat 12 then [backslashC, 'f']
  else if c.toNat < 32 then
    [backslashC, 'u', '0', '0', hexDigitChar (c.toNat / 16), hexDigitChar (c.toNat % 16)]
  else [c]

/-- The body of a JSON string literal: each character escaped. -/
def escString (s : List Char) : List Char := (s.map escChar).flatten

/-- A whole JSON string literal, quotes included. -/
def quoteStr (s : List Char) : List Char := quoteC :: escString s ++ [quoteC]

/-- The separator-and-element tail of a serialised list: CPython `json.dumps`
uses the default separator `", "` between elements. -/
def sepTail : List String → List Char
  | [] => []
  | s :: rest => ',' :: ' ' :: quoteStr s.data ++ sepTail rest

/-- The characters between the brackets of the serialised list. -/
def dumpsCore : List String → List Char
  | [] => []
  | s :: rest => quoteStr s.data ++ sepTail rest

/-- `json.dumps(l, ensure_ascii=False)` for a list of strings. -/
def dumpsList (l : List String) : String := ⟨'[' :: dumpsCore l ++ [']']⟩

example : dumpsList [] = "[]" := rfl
example : dumpsList ["a"] = "[\"a\"]" := by decide
example : dumpsList ["a", "b"] = "[\"a\", \"b\"]" := by decide

/-! ### Python `json.loads`, restricted to arrays of strings (the only JSON
values this program ever stores in the `tags` / `categories` columns). -/

/-- JSON insignificant whitespace. -/
def jsonWs (c : Char) : Bool :=
  c = ' ' || c = Char.ofNat 9 || c = Char.ofNat 10 || c = Char.ofNat 13

/-- Skip JSON whitespace. -/
def skipWs (l : List Char) : List Char := l.dropWhile jsonWs

/-- Value of a hexadecimal digit, either case, as `json.loads` accepts in
`\uXXXX` escapes. -/
def hexVal? (c : Char) : Option Nat :=
  if 48 ≤ c.toNat ∧ c.toNat ≤ 57 then some (c.toNat - 48)
  else if 97 ≤ c.toNat ∧ c.toNat ≤ 102 then some (c.toNat - 87)
  else if 65 ≤ c.toNat ∧ c.toNat ≤ 70 then some (c.toNat - 55)
  else none

/-- Decode one escape sequence after a backslash inside a JSON string
literal, returning the decoded character and the remaining input: the short
escapes, and `\uXXXX` (this program only ever emits `\u00XX`, so
surrogate-pair recombination is out of the modelled range). -/
def escDecode? : List Char → Option (Char × List Char)
  | [] => none
  | e :: cs =>
    if e = quoteC then some (quoteC, cs)
    else if e = backslashC then some (backslashC, cs)
    else if e = '/' then some ('/', cs)
    else if e = 'n' then some (Char.ofNat 10, cs)
    else if e = 't' then some (Char.ofNat 9, cs)
    else if e = 'r' then some (Char.ofNat 13, cs)
    else if e = 'b' then some (Char.ofNat 8, cs)
    else if e = 'f' then some (Char.ofNat 12, cs)
    else if e = 'u' then
      match cs with
      | h1 :: h2 :: h3 :: h4 :: cs2 =>
        match hexVal? h1, hexVal? h2, hexVal? h3, hexVal? h4 with
        | some a, some b, some c2, some d =>
          some (Char.ofNat (((a * 16 + b) * 16 + c2) * 16 + d), cs2)
        | _, _, _, _ => none
      | _ => none
    else none

/-- Parse the body of a JSON string literal (the opening quote already
consumed), returning the decoded characters and the rest of the input.
Mirrors the strict CPython decoder: a quote closes the literal, a backslash
starts an escape (`escDecode?`), raw control characters are rejected, any
other character stands for itself. The `fuel` argument makes the recursion
structural; one unit is spent per decoded character, so any fuel above the
input length is enough and callers pass length-derived fuel. -/
def parseStr : Nat → List Char → Option (List Char × List Char)
  | 0, _ => none
  | _, [] => none
  | fuel + 1, c :: cs =>
    if c = quoteC then some ([], cs)
    else if c = backslashC then
      match escDecode? cs with
      | some q => (parseStr fuel q.2).map (fun p => (q.1 :: p.1, p.2))
      | none => none
    else if c.toNat < 32 then none
    else (parseStr fuel cs).map (fun p => (c :: p.1, p.2))

example : parseStr 9 ('a' :: 'b' :: quoteC :: 'x' :: []) = some (['a', 'b'], ['x']) := by decide

/-- After the first array element: repeatedly accept `, "…"` items until the
closing `]`. The `fuel` argument only bounds the number of elements (callers
pass the input length, and every accepted element consumes at least three
characters, so the bound is never the reason a valid input is rejected). -/
def parseRest : Nat → List Char → Option (List String × List Char)
  | 0, _ => none
  | fuel + 1, l =>
    match skipWs l with
    | [] => none
    | c :: r =>
      if c = ']' then some ([], r)
      else if c = ',' then
        match skipWs r with
        | c2 :: r2 =>
          if c2 = quoteC then
            match parseStr (r2.length + 1) r2 with
            | some q => (parseRest fuel q.2).map
                (fun p : List String × List Char => (String.mk q.1 :: p.1, p.2))
            | none => none
          else none
        | [] => none
      else none

/-- `json.loads` restricted to a top-level array of strings: skip whitespace,
read `[`, then either `]` or a first string literal followed by
comma-separated string literals, and require only whitespace after the
closing bracket (CPython raises on trailing data). -/
def loadsList (str : String) : Option (List String) :=
  match skipWs str.data with
  | [] => none
  | c :: r =>
    if c = '[' then
      match skipWs r with
      | [] => none
      | c2 :: r2 =>
        if c2 = ']' then (if skipWs r2 = [] then some [] else none)
        else if c2 = quoteC then
          match parseStr (r2.length + 1) r2 with
          | some q =>
            match parseRest str.data.length q.2 with
            | some w => if skipWs w.2 = [] then some (String.mk q.1 :: w.1) else none
            | none => none
          | none => none
        else none
    else none

example : loadsList "[]" = some [] := by decide
example : loadsList "[\"a\", \"b\"]" = some ["a", "b"] := by decide
example : loadsList (dumpsList ["x", "yz"]) = some ["x", "yz"] := by decide

/-! ### Round trip: `json.loads` recovers what `json.dumps` wrote. -/

theorem escString_nil : escString [] = [] := rfl

theorem escString_cons (c : Char) (s : List Char) :
    escString (c :: s) = escChar c ++ escString s := by
  simp [escString]

theorem skipWs_cons_of_not {c : Char} (t : List Char) (h : jsonWs c = false) :
    skipWs (c :: t) = c :: t := by
  simp [skipWs, List.dropWhile, h]

theorem hexVal?_hexDigitChar {n : Nat} (h : n < 16) : hexVal? (hexDigitChar n) = some n := by
  interval_cases n <;> decide

/-- Step equations for `parseStr`, stated once so the round-trip induction
can rewrite with them. -/
theorem parseStr_quote (f : Nat) (cs : List Char) :
    parseStr (f + 1) (quoteC :: cs) = some ([], cs) := rfl

theorem parseStr_escAny (f : Nat) (cs : List Char) {d : Char} {cs2 : List Char}
    (h : escDecode? cs = some (d, cs2)) :
    parseStr (f + 1) (backslashC :: cs)
      = (parseStr f cs2).map (fun p => (d :: p.1, p.2)) := by
  show (match escDecode? cs with
    | some q => (parseStr f q.2).map
        (fun p : List Char × List Char => (q.1 :: p.1, p.2))
    | none => none) = _
  rw [h]

theorem parseStr_plain (f : Nat) (c : Char) (cs : List Char)
    (hq : ¬ c = quoteC) (hb : ¬ c = backslashC) (hc : ¬ c.toNat < 32) :
    parseStr (f + 1) (c :: cs) = (parseStr f cs).map (fun p => (c :: p.1, p.2)) := by
  show (if c = quoteC then some ([], cs)
    else if c = backslashC then
      match escDecode? cs with
      | some q => (parseStr f q.2).map (fun p => (q.1 :: p.1, p.2))
      | none => none
    else if c.toNat < 32 then none
    else (parseStr f cs).map (fun p => (c :: p.1, p.2))) = _
  rw [if_neg hq, if_neg hb, if_neg hc]

theorem escDecode?_u {h1 h2 h3 h4 : Char} (cs : List Char)
    {a b c2 d : Nat} (x1 : hexVal? h1 = some a) (x2 : hexVal? h2 = some b)
    (x3 : hexVal? h3 = some c2) (x4 : hexVal? h4 = some d) :
    escDecode? ('u' :: h1 :: h2 :: h3 :: h4 :: cs)
      = some (Char.ofNat (((a * 16 + b) * 16 + c2) * 16 + d), cs) := by
  have base : escDecode? ('u' :: h1 :: h2 :: h3 :: h4 :: cs)
      = (match hexVal? h1, hexVal? h2, hexVal? h3, hexVal? h4 with
        | some a, some b, some c2, some d =>
          some (Char.ofNat (((a * 16 + b) * 16 + c2) * 16 + d), cs)
        | _, _, _, _ => none) := rfl
  rw [base, x1, x2, x3, x4]

/-- Parsing the escaped body of a string recovers the original characters and
stops exactly at the closing quote. -/
theorem parseStr_esc : ∀ (s rest : List Char) (fuel : Nat), s.length + 1 ≤ fuel →
    parseStr fuel (escString s ++ quoteC :: rest) = some (s, rest) := by
  intro s
  induction s with
  | nil =>
    intro rest fuel hf
    cases fuel with
    | zero => exact absurd hf (by simp)
    | succ f =>
      rw [escString_nil, List.nil_append, parseStr_quote]
  | cons c s ih =>
    intro rest fuel hf
    cases fuel with
    | zero => exact absurd hf (by simp)
    | succ f =>
      have hs : s.length + 1 <= f := by
        simp only [List.length_cons] at hf; omega
      have hrec := ih rest f hs
      rw [escString_cons, List.append_assoc]
      by_cases h1 : c = quoteC
      . subst h1
        have e1 : escChar quoteC = [backslashC, quoteC] := by decide
        rw [e1]
        show parseStr (f + 1) (backslashC :: quoteC :: (escString s ++ quoteC :: rest)) = _
        have hd : escDecode? (quoteC :: (escString s ++ quoteC :: rest))
            = some (quoteC, escString s ++ quoteC :: rest) := rfl
        rw [parseStr_escAny f _ hd, hrec]
        rfl
      . by_cases h2 : c = backslashC
        . subst h2
          have e1 : escChar backslashC = [backslashC, backslashC] := by decide
          rw [e1]
          show parseStr (f + 1)
              (backslashC :: backslashC :: (escString s ++ quoteC :: rest)) = _
          have hd : escDecode? (backslashC :: (escString s ++ quoteC :: rest))
              = some (backslashC, escString s ++ quoteC :: rest) := rfl
          rw [parseStr_escAny f _ hd, hrec]
          rfl
        . by_cases h3 : c = Char.ofNat 10
          . subst h3
            have e1 : escChar (Char.ofNat 10) = [backslashC, 'n'] := by decide
            rw [e1]
            show parseStr (f + 1) (backslashC :: 'n' :: (escString s ++ quoteC :: rest)) = _
            have hd : escDecode? ('n' :: (escString s ++ quoteC :: rest))
                = some (Char.ofNat 10, escString s ++ quoteC :: rest) := rfl
            rw [parseStr_escAny f _ hd, hrec]
            rfl
          . by_cases h4 : c = Char.ofNat 9
            . subst h4
              have e1 : escChar (Char.ofNat 9) = [backslashC, 't'] := by decide
              rw [e1]
              show parseStr (f + 1) (backslashC :: 't' :: (escString s ++ quoteC :: rest)) = _
              have hd : escDecode? ('t' :: (escString s ++ quoteC :: rest))
                  = some (Char.ofNat 9, escString s ++ quoteC :: rest) := rfl
              rw [parseStr_escAny f _ hd, hrec]
              rfl
            . by_cases h5 : c = Char.ofNat 13
              . subst h5
                have e1 : escChar (Char.ofNat 13) = [backslashC, 'r'] := by decide
                rw [e1]
                show parseStr (f + 1)
                    (backslashC :: 'r' :: (escString s ++ quoteC :: rest)) = _
                have hd : escDecode? ('r' :: (escString s ++ quoteC :: rest))
                    = some (Char.ofNat 13, escString s ++ quoteC :: rest) := rfl
                rw [parseStr_escAny f _ hd, hrec]
                rfl
              . by_cases h6 : c = Char.ofNat 8
                . subst h6
                  have e1 : escChar (Char.ofNat 8) = [backslashC, 'b'] := by decide
                  rw [e1]
                  show parseStr (f + 1)
                      (backslashC :: 'b' :: (escString s ++ quoteC :: rest)) = _
                  have hd : escDecode? ('b' :: (escString s ++ quoteC :: rest))
                      = some (Char.ofNat 8, escString s ++ quoteC :: rest) := rfl
                  rw [parseStr_escAny f _ hd, hrec]
                  rfl
                . by_cases h7 : c = Char.ofNat 12
                  . subst h7
                    have e1 : escChar (Char.ofNat 12) = [backslashC, 'f'] := by decide
                    rw [e1]
                    show parseStr (f + 1)
                        (backslashC :: 'f' :: (escString s ++ quoteC :: rest)) = _
                    have hd : escDecode? ('f' :: (escString s ++ quoteC :: rest))
                        = some (Char.ofNat 12, escString s ++ quoteC :: rest) := rfl
                    rw [parseStr_escAny f _ hd, hrec]
                    rfl
                  . by_cases h8 : c.toNat < 32
                    . have e1 : escChar c = [backslashC, 'u', '0', '0',
                          hexDigitChar (c.toNat / 16), hexDigitChar (c.toNat % 16)] := by
                        simp [escChar, h1, h2, h3, h4, h5, h6, h7, h8]
                      have hz : hexVal? '0' = some 0 := by decide
                      have hx1 : hexVal? (hexDigitChar (c.toNat / 16)) = some (c.toNat / 16) :=
                        hexVal?_hexDigitChar (by omega)
                      have hx2 : hexVal? (hexDigitChar (c.toNat % 16)) = some (c.toNat % 16) :=
                        hexVal?_hexDigitChar (by omega)
                      rw [e1]
                      show parseStr (f + 1) (backslashC :: 'u' :: '0' :: '0'
                          :: hexDigitChar (c.toNat / 16) :: hexDigitChar (c.toNat % 16)
                          :: (escString s ++ quoteC :: rest)) = _
                      rw [parseStr_escAny f _ (escDecode?_u _ hz hz hx1 hx2), hrec]
                      have hv : ((0 * 16 + 0) * 16 + c.toNat / 16) * 16 + c.toNat % 16
                          = c.toNat := by omega
                      have hv2 : c.toNat / 16 * 16 + c.toNat % 16 = c.toNat := by omega
                      simp [hv, hv2, Char.ofNat_toNat]
                    . have e1 : escChar c = [c] := by
                        simp [escChar, h1, h2, h3, h4, h5, h6, h7, h8]
                      rw [e1]
                      show parseStr (f + 1) (c :: (escString s ++ quoteC :: rest)) = _
                      rw [parseStr_plain f c _ h1 h2 h8, hrec]
                      rfl

theorem skipWs_cons_ws {c : Char} (t : List Char) (h : jsonWs c = true) :
    skipWs (c :: t) = skipWs t := by
  simp [skipWs, List.dropWhile, h]

theorem escChar_len_pos (c : Char) : 1 ≤ (escChar c).length := by
  unfold escChar
  repeat' split
  all_goals simp

theorem escString_len (s : List Char) : s.length ≤ (escString s).length := by
  induction s with
  | nil => simp [escString_nil]
  | cons c s ih =>
    rw [escString_cons]
    have := escChar_len_pos c
    simp only [List.length_append, List.length_cons]
    omega

theorem sepTail_len (l : List String) : l.length ≤ (sepTail l).length := by
  induction l with
  | nil => simp [sepTail]
  | cons s l ih =>
    simp only [sepTail, List.length_cons, List.length_append]
    omega

/-- Step equation for `parseRest` at positive fuel. -/
theorem parseRest_succ (fuel : Nat) (l : List Char) :
    parseRest (fuel + 1) l
      = (match skipWs l with
        | [] => none
        | c :: r =>
          if c = ']' then some ([], r)
          else if c = ',' then
            match skipWs r with
            | c2 :: r2 =>
              if c2 = quoteC then
                match parseStr (r2.length + 1) r2 with
                | some q => (parseRest fuel q.2).map
                    (fun p : List String × List Char => (String.mk q.1 :: p.1, p.2))
                | none => none
              else none
            | [] => none
          else none) := rfl

/-- Parsing the serialised tail of a list recovers the remaining elements and
consumes the whole input. -/
theorem parseRest_tail : ∀ (l : List String) (fuel : Nat), l.length + 1 ≤ fuel →
    parseRest fuel (sepTail l ++ [']']) = some (l, []) := by
  intro l
  induction l with
  | nil =>
    intro fuel hf
    cases fuel with
    | zero => exact absurd hf (by simp)
    | succ f => rfl
  | cons s l ih =>
    intro fuel hf
    cases fuel with
    | zero => exact absurd hf (by simp)
    | succ f =>
      have hs : l.length + 1 ≤ f := by simp only [List.length_cons] at hf; omega
      have hrec := ih f hs
      rw [parseRest_succ]
      have h1 : skipWs (sepTail (s :: l) ++ [']'])
          = ',' :: ' ' :: ((quoteStr s.data ++ sepTail l) ++ [']']) := by
        have hx : sepTail (s :: l) ++ [']']
            = ',' :: ' ' :: ((quoteStr s.data ++ sepTail l) ++ [']']) := by
          simp [sepTail]
        rw [hx, skipWs_cons_of_not _ (by decide)]
      rw [h1]
      dsimp only
      rw [if_neg (by decide), if_pos rfl]
      have h2 : skipWs (' ' :: ((quoteStr s.data ++ sepTail l) ++ [']']))
          = quoteC :: (escString s.data ++ quoteC :: (sepTail l ++ [']'])) := by
        rw [skipWs_cons_ws _ (by decide)]
        have hx : (quoteStr s.data ++ sepTail l) ++ [']']
            = quoteC :: (escString s.data ++ quoteC :: (sepTail l ++ [']'])) := by
          simp [quoteStr]
        rw [hx, skipWs_cons_of_not _ (by decide)]
      rw [h2]
      dsimp only
      rw [if_pos rfl]
      have hps := parseStr_esc s.data (sepTail l ++ [']'])
          ((escString s.data ++ quoteC :: (sepTail l ++ [']'])).length + 1) (by
            have := escString_len s.data
            simp only [List.length_append, List.length_cons]
            omega)
      rw [hps]
      dsimp only
      rw [hrec]
      rfl

/-- Full JSON round trip: `json.loads` recovers exactly the list of strings
that `json.dumps` serialised. -/
theorem loads_dumps (l : List String) : loadsList (dumpsList l) = some l := by
  cases l with
  | nil => rfl
  | cons s l =>
    simp only [loadsList]
    have hdata : (dumpsList (s :: l)).data
        = '[' :: ((quoteStr s.data ++ sepTail l) ++ [']']) := by
      simp [dumpsList, dumpsCore]
    rw [hdata, skipWs_cons_of_not _ (by decide)]
    dsimp only
    rw [if_pos rfl]
    have h2 : skipWs ((quoteStr s.data ++ sepTail l) ++ [']'])
        = quoteC :: (escString s.data ++ quoteC :: (sepTail l ++ [']'])) := by
      have hx : (quoteStr s.data ++ sepTail l) ++ [']']
          = quoteC :: (escString s.data ++ quoteC :: (sepTail l ++ [']'])) := by
        simp [quoteStr]
      rw [hx, skipWs_cons_of_not _ (by decide)]
    rw [h2]
    dsimp only
    rw [if_neg (by decide), if_pos rfl]
    have hps := parseStr_esc s.data (sepTail l ++ [']'])
        ((escString s.data ++ quoteC :: (sepTail l ++ [']'])).length + 1) (by
          have := escString_len s.data
          simp only [List.length_append, List.length_cons]
          omega)
    rw [hps]
    dsimp only
    have hrest := parseRest_tail l ('[' :: ((quoteStr s.data ++ sepTail l) ++ [']'])).length
        (by
          have := sepTail_len l
          simp only [List.length_cons, List.length_append, quoteStr, escString]
          omega)
    rw [hrest]
    rfl

/-! ### The SQLite `LIKE` operator, default semantics: `%` matches any
sequence, `_` matches one character, plain characters compare ASCII
case-insensitively. -/

/-- The `LIKE` matcher. The `%` case succeeds when any suffix of the text
matches the remaining pattern. -/
def likeMatch : List Char → List Char → Bool
  | [], cs => cs.isEmpty
  | c :: ps, cs =>
    if c = '%' then cs.tails.any (fun suf => likeMatch ps suf)
    else
      match cs with
      | [] => false
      | d :: cs2 =>
        if c = '_' then likeMatch ps cs2
        else upperAscii c = upperAscii d && likeMatch ps cs2

example : likeMatch "a%c".data "abbbc".data = true := by decide
example : likeMatch "a_c".data "abc".data = true := by decide
example : likeMatch "ENG".data "eng".data = true := by decide
example : likeMatch "ab".data "abc".data = false := by decide

/-! ### The persistent index (`models/database.py`).

A `Row` is one record of the `posts` table, with the `tags` / `categories`
columns holding JSON text exactly as the SQLite schema does. The table is a
list in rowid order; `file_path` is the UNIQUE key. Timestamps are `Time`
(an abbreviation of `Int`): only timestamp equality matters to any claim,
and SQLite REAL stores a Python float exactly. -/

abbrev Time := Int

/-- The argument dictionary of `Database.upsert_post` (`_cache_post` always
supplies every key, so the `.get(..., default)` fallbacks of the Python code
are not observable here). -/
structure PostData where
  file_path : String
  relative_path : String
  title : String
  date : String
  description : String
  excerpt : String
  tags : List String
  categories : List String
  mod_time : Time
deriving DecidableEq

/-- One row of the `posts` table. -/
structure Row where
  file_path : String
  relative_path : String
  title : String
  date : String
  description : String
  excerpt : String
  tags : String
  categories : String
  mod_time : Time
  cached_at : Time
deriving DecidableEq

/-- The row written by `Database.upsert_post`: lists serialised with
`json.dumps(..., ensure_ascii=False)`, `cached_at` stamped with the wall
clock (threaded in as `now`). -/
def postRow (now : Time) (pd : PostData) : Row :=
  { file_path := pd.file_path
    relative_path := pd.relative_path
    title := pd.title
    date := pd.date
    description := pd.description
    excerpt := pd.excerpt
    tags := dumpsList pd.tags
    categories := dumpsList pd.categories
    mod_time := pd.mod_time
    cached_at := now }

/-- `Database.upsert_post`: `INSERT OR REPLACE` keyed on the UNIQUE
`file_path` — the colliding row (if any) is removed and the new row inserted
with a fresh rowid at the end of the table. -/
def upsert_post (now : Time) (pd : PostData) (db : List Row) : List Row :=
  db.filter (fun r => r.file_path ≠ pd.file_path) ++ [postRow now pd]

/-- `Database.delete_post`: `DELETE FROM posts WHERE file_path = ?`. -/
def delete_post (p : String) (db : List Row) : List Row :=
  db.filter (fun r => r.file_path ≠ p)

/-- `Database.get_all_file_paths`: `SELECT file_path FROM posts`. -/
def get_all_file_paths (db : List Row) : List String :=
  db.map (fun r => r.file_path)

/-- The dictionary produced by `Database._row_to_dict`: the row with the
`tags` / `categories` JSON text decoded back to lists. `json.loads` raising
(or returning a non-list) is modelled by `none`; rows written by
`upsert_post` always decode to `some`. -/
structure PostOut where
  file_path : String
  relative_path : String
  title : String
  date : String
  description : String
  excerpt : String
  tags : Option (List String)
  categories : Option (List String)
  mod_time : Time
  cached_at : Time
deriving DecidableEq

/-- `Database._row_to_dict`. -/
def row_to_dict (r : Row) : PostOut :=
  { file_path := r.file_path
    relative_path := r.relative_path
    title := r.title
    date := r.date
    description := r.description
    excerpt := r.excerpt
    tags := loadsList r.tags
    categories := loadsList r.categories
    mod_time := r.mod_time
    cached_at := r.cached_at }

/-- `Database.get_post`: `SELECT * FROM posts WHERE file_path = ?` with
`fetchone` — the first matching row in table order, decoded, or `None`. -/
def get_post (p : String) (db : List Row) : Option PostOut :=
  (db.find? (fun r => r.file_path = p)).map row_to_dict

/-- A `column LIKE ?` test with parameter `f'%{pat}%'`, as `search_posts`
issues for the free-text query against title/description/excerpt. -/
def likeContains (pat : String) (s : String) : Bool :=
  likeMatch ('%' :: pat.data ++ ['%']) s.data

/-- The LIKE pattern `f'%"{tag}"%'` used by `search_posts` for the tag and
category filters: the filter string wrapped in double quotes, with wildcards
around. -/
def quotedPattern (t : String) : List Char :=
  '%' :: quoteC :: t.data ++ quoteC :: ['%']

/-- `Database.search_posts`: rows must pass every filter whose argument is a
non-empty string; the query matches title, description or excerpt by
`LIKE '%q%'`, the category/tag filters match the serialised JSON column by
`LIKE '%"t"%'`. The SQL orders the result by `date DESC`; the ordering is
omitted here because every claim about search concerns the result set, which
an ordering permutation does not change. -/
def search_posts (query category tag : String) (db : List Row) : List PostOut :=
  (db.filter (fun r =>
    (query = "" || likeContains query r.title || likeContains query r.description
      || likeContains query r.excerpt)
    && (category = "" || likeMatch (quotedPattern category) r.categories.data)
    && (tag = "" || likeMatch (quotedPattern tag) r.tags.data))).map row_to_dict

/-- One step of the counting loop of `Database.get_all_tags`:
`tag_count[tag] = tag_count.get(tag, 0) + 1` on a Python dict, which keeps
keys in first-insertion order. -/
def bump (acc : List (String × Nat)) (t : String) : List (String × Nat) :=
  match acc with
  | [] => [(t, 1)]
  | (k, n) :: rest => if k = t then (k, n + 1) :: rest else (k, n) :: bump rest t

/-- The tag-occurrence counts accumulated over `SELECT tags FROM posts` in
table order: each row's JSON column is decoded and every element counted
(`if tags is not None` guards the JSON value `null`, modelled by the `none`
branch). -/
def countTags (db : List Row) : List (String × Nat) :=
  db.foldl (fun acc r =>
    match loadsList r.tags with
    | some ts => ts.foldl bump acc
    | none => acc) []

/-- `Database.get_all_tags`: the counts sorted descending by count.
Python `list.sort(key=..., reverse=True)` is a stable sort, so tied counts
keep their first-encountered order; `List.insertionSort` with the relation
`b.2 ≤ a.2` is a stable descending sort and therefore produces the identical
list. -/
def get_all_tags (db : List Row) : List (String × Nat) :=
  List.insertionSort (fun a b => b.2 ≤ a.2) (countTags db)

/-- `Database.get_all_categories` is the same loop over the `categories`
column. -/
def get_all_categories (db : List Row) : List (String × Nat) :=
  List.insertionSort (fun a b => b.2 ≤ a.2)
    (db.foldl (fun acc r =>
      match loadsList r.categories with
      | some cs => cs.foldl bump acc
      | none => acc) [])

/-! ### Excerpt generation (`BlogPost._generate_excerpt` in
`utils/blog_parser.py`). -/

/-- The whitespace set of Python `str.strip()`: CPython strips the
characters for which `Py_UNICODE_ISSPACE` holds — the ASCII controls
U+0009–U+000D and U+001C–U+001F, the space, NEL U+0085, NBSP U+00A0, the
Ogham space mark U+1680, the typographic spaces U+2000–U+200A, the line and
paragraph separators U+2028/U+2029, the narrow and mathematical spaces
U+202F/U+205F, and the ideographic space U+3000. -/
def pyWs (c : Char) : Bool :=
  (9 ≤ c.toNat && c.toNat ≤ 13) || (28 ≤ c.toNat && c.toNat ≤ 32)
    || c.toNat = 133 || c.toNat = 160 || c.toNat = 5760
    || (8192 ≤ c.toNat && c.toNat ≤ 8202) || c.toNat = 8232
    || c.toNat = 8233 || c.toNat = 8239 || c.toNat = 8287
    || c.toNat = 12288

/-- Scanner for `re.sub(r'#+ ', '', text)`: a maximal run of `#` immediately
followed by a space is deleted together with that one space; a run not
followed by a space is kept (no match can start inside a run, since the
characters after its first position are `#` up to the non-space). The
pending accumulator holds the `#`-run read so far, in reverse. -/
def stripH (pending : List Char) : List Char → List Char
  | [] => pending.reverse
  | c :: rest =>
    if c = '#' then stripH ('#' :: pending) rest
    else if pending ≠ [] && c = ' ' then stripH [] rest
    else pending.reverse ++ c :: stripH [] rest

/-- `re.sub(r'#+ ', '', text)`. -/
def stripHashes (l : List Char) : List Char := stripH [] l

example : stripHashes "## Title x".data = "Title x".data := by decide
example : stripHashes "a ## b".data = "a b".data := by decide
example : stripHashes "a#b".data = "a#b".data := by decide

/-- One attempt of the link regex `\[([^\]]+)\]\([^\)]+\)` at the current
position: `[`, one or more non-`]`, `]`, `(`, one or more non-`)`, `)`.
Both character classes exclude their closing bracket, so the greedy
quantifiers are deterministic. Returns the link text (group 1) and the rest
of the input after the match. -/
def tryLink (l : List Char) : Option (List Char × List Char) :=
  match l with
  | [] => none
  | c :: rest =>
    if c = '[' then
      let txt := rest.takeWhile (fun d => d ≠ ']')
      match rest.dropWhile (fun d => d ≠ ']') with
      | ']' :: '(' :: rest2 =>
        let url := rest2.takeWhile (fun d => d ≠ ')')
        match rest2.dropWhile (fun d => d ≠ ')') with
        | ')' :: tail => if txt ≠ [] && url ≠ [] then some (txt, tail) else none
        | _ => none
      | _ => none
    else none

/-- `re.sub(r'\[([^\]]+)\]\([^\)]+\)', r'\1', text)`: left-to-right scan;
where the regex matches, the match is replaced by its group 1; otherwise the
scan advances one character. The fuel is one unit per consumed character, so
the input length always suffices. -/
def stripLinksF : Nat → List Char → List Char
  | 0, l => l
  | _, [] => []
  | fuel + 1, c :: rest =>
    match tryLink (c :: rest) with
    | some q => q.1 ++ stripLinksF fuel q.2
    | none => c :: stripLinksF fuel rest

def stripLinks (l : List Char) : List Char := stripLinksF l.length l

example : stripLinks "a [x](u) b".data = "a x b".data := by decide
example : stripLinks "[x] (u)".data = "[x] (u)".data := by decide

/-- `re.sub(r'[*_`]', '', text)`. -/
def stripMarks (l : List Char) : List Char :=
  l.filter (fun c => ¬(c = '*' || c = '_' || c = backtickC))

/-- Python `str.strip()`. -/
def pyStrip (l : List Char) : List Char :=
  ((l.dropWhile pyWs).reverse.dropWhile pyWs).reverse

/-- `BlogPost._generate_excerpt`: empty content gives an empty excerpt;
otherwise the markdown-stripping substitutions run in order, the excerpt is
the first 200 characters of the whitespace-stripped text, and `...` is
appended when the length of the text **before** `str.strip()` exceeds 200. -/
def generate_excerpt (content : String) : String :=
  if content = "" then ""
  else
    let text := stripMarks (stripLinks (stripHashes content.data))
    let ex := (pyStrip text).take 200
    if 200 < text.length then ⟨ex ++ ('.' :: '.' :: '.' :: [])⟩ else ⟨ex⟩

/-! ### The reconciliation engine (`services/cache_service.py`).

An `FsFile` is one entry matched by `post_dir.rglob("*.md")` together with
the result of parsing it (`BlogPost._parse`): the directory walk and the
front-matter decoding are the filesystem boundary of the embedding, the
fields are exactly what `CacheService._cache_post` consumes. -/

structure FsFile where
  path : String
  relative_path : String
  isDir : Bool
  mtime : Time
  title : String
  date : String
  description : String
  tags : List String
  categories : List String
  content : String
deriving DecidableEq

/-- `get_blog_posts` (`utils/blog_parser.py`): every `rglob` match that is
not a directory is parsed into a `BlogPost`; posts with an empty title and
empty content (parse failures and genuinely empty files) are skipped. The
final sort by date is omitted: it permutes the list and every claim below is
insensitive to the processing order. -/
def get_blog_posts (fs : List FsFile) : List FsFile :=
  fs.filter (fun f => !f.isDir && !(f.title = "" && f.content = ""))

/-- The `post_data` dictionary built by `CacheService._cache_post` from a
parsed post; the excerpt is `BlogPost._generate_excerpt` of the body. -/
def fsPostData (f : FsFile) : PostData :=
  { file_path := f.path
    relative_path := f.relative_path
    title := f.title
    date := f.date
    description := f.description
    excerpt := generate_excerpt f.content
    tags := f.tags
    categories := f.categories
    mod_time := f.mtime }

/-- Counters observable from one reconciliation pass: `update_count`,
`delete_count` as printed by `CacheService.initialize`, and the number of
`BlogPost` constructions (file parses) performed by `get_blog_posts`. -/
structure SyncStats where
  updates : Nat
  deletes : Nat
  parses : Nat
deriving DecidableEq

/-- The posts `CacheService.initialize` re-parses and upserts: new to the
index, forced, or present with a differing `mod_time` (lines 61-71; the
`cached_post and ...` guard is the `match`). All membership tests run
against the snapshot of the index taken before any write, exactly as the
Python code takes `cached_paths` first. -/
def syncToUpdate (force : Bool) (fs : List FsFile) (db : List Row) : List FsFile :=
  (get_blog_posts fs).filter (fun f =>
    force || !((get_all_file_paths db).contains f.path)
    || (match get_post f.path db with
        | some cp => cp.mod_time ≠ f.mtime
        | none => false))

/-- The stale paths `to_delete = cached_paths - current_paths` (a Python
set: `dedup` reproduces its cardinality, and its iteration order is
immaterial because deletions of distinct keys commute). -/
def syncToDelete (fs : List FsFile) (db : List Row) : List String :=
  (get_all_file_paths db).dedup.filter
    (fun q => !(((get_blog_posts fs).map (fun f => f.path)).contains q))

/-- The body of `CacheService.initialize` after the guard (lines 50-86):
snapshot the tree, upsert the posts that are new, forced, or carry a changed
`mod_time`, then delete the cached paths that no longer exist. -/
def sync (now : Time) (force : Bool) (fs : List FsFile) (db : List Row) :
    List Row × SyncStats :=
  let db1 := (syncToUpdate force fs db).foldl
    (fun d f => upsert_post now (fsPostData f) d) db
  let db2 := (syncToDelete fs db).foldl (fun d q => delete_post q d) db1
  (db2, { updates := (syncToUpdate force fs db).length,
          deletes := (syncToDelete fs db).length,
          parses := (fs.filter (fun f => !f.isDir)).length })

/-- The in-memory service state: the database plus the
`CacheService._initialized` guard flag. -/
structure CacheState where
  db : List Row
  inited : Bool
deriving DecidableEq

/-- `CacheService.initialize`: when the guard flag is set and no rebuild is
forced, return immediately without touching the filesystem or the database;
otherwise run the reconciliation body and set the flag. -/
def initCache (now : Time) (force : Bool) (fs : List FsFile) (st : CacheState) :
    CacheState × SyncStats :=
  if st.inited && !force then (st, ⟨0, 0, 0⟩)
  else
    let r := sync now force fs st.db
    ({ db := r.1, inited := true }, r.2)

/-- `CacheService.refresh`: literally `self.initialize(force_rebuild=False)`. -/
def refresh (now : Time) (fs : List FsFile) (st : CacheState) :
    CacheState × SyncStats :=
  initCache now false fs st

/-! ### The publish flow (`services/post_service.py`). -/

/-- A wall-clock instant in the fixed UTC+8 zone used by the publish path
(`datetime.now(timezone(timedelta(hours=8)))`). -/
structure CnTime where
  year : Nat
  month : Nat
  day : Nat
  hour : Nat
  minute : Nat
  second : Nat
deriving DecidableEq

/-- Two-digit zero-padded decimal field of `strftime`. -/
def fmt2 (n : Nat) : List Char :=
  [Char.ofNat (48 + n / 10 % 10), Char.ofNat (48 + n % 10)]

/-- Four-digit zero-padded decimal field of `strftime` (`%Y`). -/
def fmt4 (n : Nat) : List Char :=
  [Char.ofNat (48 + n / 1000 % 10), Char.ofNat (48 + n / 100 % 10),
    Char.ofNat (48 + n / 10 % 10), Char.ofNat (48 + n % 10)]

/-- `now.strftime('%Y-%m-%dT%H:%M:%S+08:00')`: the RFC3339-like stamp with
the fixed `+08:00` offset written into `publishDate`. -/
def publish_stamp (t : CnTime) : String :=
  ⟨fmt4 t.year ++ '-' :: fmt2 t.month ++ '-' :: fmt2 t.day
    ++ 'T' :: fmt2 t.hour ++ ':' :: fmt2 t.minute ++ ':' :: fmt2 t.second
    ++ ('+' :: '0' :: '8' :: ':' :: '0' :: '0' :: [])⟩

example : publish_stamp ⟨2025, 3, 7, 9, 30, 5⟩ = "2025-03-07T09:30:05+08:00" := by decide

/-- The front-matter fields the publish flow reads or writes. Absent keys
are `none` (`frontmatter` returns the `.get` default there). -/
structure FrontMeta where
  draft : Option Bool
  publishDate : Option String
  title : Option String
deriving DecidableEq

/-- A content file: front matter plus body. -/
structure Article where
  meta : FrontMeta
  body : String
deriving DecidableEq

/-- The `publish_operation` closure inside `PostService.publish_article`,
lines 71-94, together with its effect on the file: if
`post.get('draft', False)` is falsy the operation fails with the
already-published message and the file is untouched (`frontmatter.dump` is
only reached on the success path); otherwise `draft` is set to `False`, a
UTC+8 `publishDate` is stamped only when the key is absent, and the file is
rewritten. -/
def publish_operation (t : CnTime) (a : Article) : Bool × String × Article :=
  if !(a.meta.draft.getD false) then (false, "文章已经发布", a)
  else
    let m1 : FrontMeta := { a.meta with draft := some false }
    let m2 : FrontMeta :=
      if a.meta.publishDate = none then { m1 with publishDate := some (publish_stamp t) }
      else m1
    (true, "文章发布成功", { a with meta := m2 })

/-- `BlogPost._parse` line 66: `self.draft = metadata.get('draft', False)`. -/
def blogpost_draft (m : FrontMeta) : Bool := m.draft.getD false

/-- `PostService.get_publish_status` line 186:
`is_draft = post.get('draft', True)`. -/
def status_is_draft (m : FrontMeta) : Bool := m.draft.getD true

/-! ### Path validation (`PostService._is_safe_path`) and the filesystem
side of `publish_article`.

A path is a list of segments (each a `List Char`); an absolute path
`/a/b` renders as the string `"/a/b"`. `Path.resolve()` without symlinks
eliminates `.` and `..` components (`..` at the root stays at the root).
`_is_safe_path` compares the two **rendered strings** with
`str.startswith`. -/

/-- `str()` of an absolute `Path` with the given components. (The root path
itself, `Path('/')`, renders as `/` and is not in the image of this
function for the empty list; the theorems below therefore assume the content
root resolves to at least one component.) -/
def renderAbs : List (List Char) → List Char
  | [] => []
  | s :: rest => '/' :: s ++ renderAbs rest

/-- `Path.resolve()` on a symlink-free absolute path: fold the components,
`..` dropping the last accumulated component, `.` disappearing. -/
def resolveSegs (segs : List (List Char)) : List (List Char) :=
  segs.foldl (fun acc s =>
    if s = ('.' :: '.' :: []) then acc.dropLast
    else if s = ('.' :: []) then acc
    else acc ++ [s]) []

/-- `PostService._is_safe_path`: resolve both paths and test
`str(file_path).startswith(str(content_dir))`. -/
def is_safe_path (root arg : List (List Char)) : Bool :=
  listPre (renderAbs (resolveSegs root)) (renderAbs (resolveSegs arg))

/-- The path argument of `publish_article`: either absolute, or relative (in
which case the code prepends the content root). -/
structure PathArg where
  absolute : Bool
  segs : List (List Char)

/-- The joined path `self.content_dir / file_path`. -/
def argAbs (root : List (List Char)) (a : PathArg) : List (List Char) :=
  if a.absolute then a.segs else root ++ a.segs

/-- The filesystem visible to the publish flow: articles keyed by resolved
absolute path (the code opens the unresolved joined path, which without
symlinks denotes the same file as its resolved form). -/
abbrev FileSys := List (List (List Char) × Article)

def fsLookup (p : List (List Char)) (fs : FileSys) : Option Article :=
  (fs.find? (fun e => e.1 = p)).map (fun e => e.2)

def fsWrite (p : List (List Char)) (art : Article) (fs : FileSys) : FileSys :=
  fs.map (fun e => if e.1 = p then (e.1, art) else e)

/-- `PostService.publish_article` lines 55-103: join a relative argument
onto the content root, reject unsafe paths with the forbidden message and no
write, reject missing files, otherwise run the locked publish operation and
write the file back only on success. The advisory file lock always succeeds
here (a single actor), and the UUID operation id is omitted — no claim
mentions either. -/
def publish_article (root : List (List Char)) (t : CnTime) (a : PathArg)
    (fs : FileSys) : Bool × String × FileSys :=
  let p := argAbs root a
  if !(is_safe_path root p) then (false, "访问被拒绝:文件不在允许的目录中", fs)
  else
    match fsLookup (resolveSegs p) fs with
    | none => (false, "文件不存在", fs)
    | some art =>
      let r := publish_operation t art
      (r.1, r.2.1, if r.1 then fsWrite (resolveSegs p) r.2.2 fs else fs)

/-! ### Basic lookup lemmas for the index. -/

theorem find?_path_filter_ne (db : List Row) (x p : String) (h : x ≠ p) :
    (db.filter (fun r => r.file_path ≠ x)).find? (fun r => r.file_path = p)
      = db.find? (fun r => r.file_path = p) := by
  induction db with
  | nil => rfl
  | cons r db ih =>
    by_cases hr : r.file_path = x
    · have hpr : ¬ ((fun s : Row => decide (s.file_path = p)) r = true) := by
        simp only [decide_eq_true_eq, hr]
        exact h
      rw [List.filter_cons_of_neg (by simp [hr])]
      exact ih.trans
        (@List.find?_cons_of_neg Row (fun s => decide (s.file_path = p)) r db hpr).symm
    · rw [List.filter_cons_of_pos (by simp [hr])]
      by_cases hp : r.file_path = p
      · have hq : (fun s : Row => decide (s.file_path = p)) r = true := by simp [hp]
        rw [@List.find?_cons_of_pos Row (fun s => decide (s.file_path = p)) r
              (List.filter (fun s => decide (s.file_path ≠ x)) db) hq,
            @List.find?_cons_of_pos Row (fun s => decide (s.file_path = p)) r db hq]
      · have hq : ¬ ((fun s : Row => decide (s.file_path = p)) r = true) := by simp [hp]
        rw [@List.find?_cons_of_neg Row (fun s => decide (s.file_path = p)) r
              (List.filter (fun s => decide (s.file_path ≠ x)) db) hq,
            @List.find?_cons_of_neg Row (fun s => decide (s.file_path = p)) r db hq]
        exact ih

theorem get_post_upsert (now : Time) (pd : PostData) (db : List Row) (p : String) :
    get_post p (upsert_post now pd db)
      = if pd.file_path = p then some (row_to_dict (postRow now pd))
        else get_post p db := by
  unfold get_post upsert_post
  rw [List.find?_append]
  by_cases h : pd.file_path = p
  · subst h
    have h1 : (db.filter (fun r => r.file_path ≠ pd.file_path)).find?
        (fun r => r.file_path = pd.file_path) = none := by
      rw [List.find?_eq_none]
      intro r hr
      have := (List.mem_filter.mp hr).2
      simp at this ⊢
      exact this
    rw [h1]
    simp [postRow]
  · rw [find?_path_filter_ne db pd.file_path p h]
    have h2 : List.find? (fun r => r.file_path = p) [postRow now pd] = none := by
      simp [postRow, h]
    rw [h2]
    simp [h]

theorem get_post_delete (q p : String) (db : List Row) :
    get_post p (delete_post q db) = if q = p then none else get_post p db := by
  unfold get_post delete_post
  by_cases h : q = p
  · subst h
    have h1 : (db.filter (fun r => r.file_path ≠ q)).find?
        (fun r => r.file_path = q) = none := by
      rw [List.find?_eq_none]
      intro r hr
      have := (List.mem_filter.mp hr).2
      simp at this ⊢
      exact this
    simp [h1]
  · rw [find?_path_filter_ne db q p h]
    simp [h]

theorem get_post_some_iff (p : String) (db : List Row) :
    (∃ o, get_post p db = some o) ↔ p ∈ get_all_file_paths db := by
  unfold get_post get_all_file_paths
  constructor
  · rintro ⟨o, ho⟩
    cases hf : db.find? (fun r => r.file_path = p) with
    | none => rw [hf] at ho; exact absurd ho (by simp)
    | some r =>
      have hm := List.find?_some hf
      have hr := List.mem_of_find?_eq_some hf
      simp at hm
      exact List.mem_map.mpr ⟨r, hr, hm⟩
  · intro hp
    obtain ⟨r, hr, hrp⟩ := List.mem_map.mp hp
    have : (db.find? (fun r => r.file_path = p)).isSome := by
      rw [List.find?_isSome]
      exact ⟨r, hr, by simp [hrp]⟩
    cases hf : db.find? (fun r => r.file_path = p) with
    | none => rw [hf] at this; simp at this
    | some r2 => exact ⟨row_to_dict r2, by simp [get_post, hf]⟩

theorem get_post_none_of_not_mem (p : String) (db : List Row)
    (h : p ∉ get_all_file_paths db) : get_post p db = none := by
  cases hg : get_post p db with
  | none => rfl
  | some o => exact absurd ((get_post_some_iff p db).mp ⟨o, hg⟩) h

/-- C10: upsert followed by lookup on the same path returns the record with
the upserted title, `mod_time`, tags and categories (the list fields survive
the JSON round trip unchanged), and lookup of a path that was never upserted
or was just deleted returns `None`. -/
theorem C10_index_roundtrip :
    (∀ (now : Time) (pd : PostData) (db : List Row),
      get_post pd.file_path (upsert_post now pd db)
        = some { file_path := pd.file_path, relative_path := pd.relative_path,
                 title := pd.title, date := pd.date, description := pd.description,
                 excerpt := pd.excerpt, tags := some pd.tags,
                 categories := some pd.categories, mod_time := pd.mod_time,
                 cached_at := now })
    ∧ (∀ (p : String) (db : List Row),
        p ∉ get_all_file_paths db → get_post p db = none)
    ∧ (∀ (p : String) (db : List Row), get_post p (delete_post p db) = none) := by
  refine ⟨fun now pd db => ?_, get_post_none_of_not_mem, fun p db => ?_⟩
  · rw [get_post_upsert]
    rw [if_pos rfl]
    simp [row_to_dict, postRow, loads_dumps]
  · rw [get_post_delete]
    rw [if_pos rfl]

/-- Witness for C10 at a concrete record and database. -/
theorem C10_index_roundtrip_witness :
    get_post "p.md"
        (upsert_post 7
          { file_path := "p.md", relative_path := "post/p.md", title := "T",
            date := "2025-01-01", description := "d", excerpt := "e",
            tags := ["a", "b"], categories := ["c"], mod_time := 5 } [])
      = some { file_path := "p.md", relative_path := "post/p.md", title := "T",
               date := "2025-01-01", description := "d", excerpt := "e",
               tags := some ["a", "b"], categories := some ["c"], mod_time := 5,
               cached_at := 7 }
    ∧ get_post "q.md" [] = none
    ∧ get_post "p.md" (delete_post "p.md" []) = none :=
  ⟨C10_index_roundtrip.1 7
      { file_path := "p.md", relative_path := "post/p.md", title := "T",
        date := "2025-01-01", description := "d", excerpt := "e",
        tags := ["a", "b"], categories := ["c"], mod_time := 5 } [],
    C10_index_roundtrip.2.1 "q.md" [] (by decide),
    C10_index_roundtrip.2.2 "p.md" []⟩

/-! ### Claims about the publish flow. -/

/-- C4: a draft file publishes successfully once — `draft` flips to `false`,
the rewritten file keeps its body, and a UTC+8 `publishDate` is stamped only
when one is not already present — and a second publish of the resulting file
fails with the already-published message and returns the file unchanged. -/
theorem C4_publish_twice (t t2 : CnTime) (a : Article) (h : a.meta.draft = some true) :
    (publish_operation t a).1 = true
    ∧ ((publish_operation t a).2.2).meta.draft = some false
    ∧ ((publish_operation t a).2.2).meta.publishDate
        = some (a.meta.publishDate.getD (publish_stamp t))
    ∧ ((publish_operation t a).2.2).body = a.body
    ∧ publish_operation t2 ((publish_operation t a).2.2)
        = (false, "文章已经发布", (publish_operation t a).2.2) := by
  have h1 : a.meta.draft.getD false = true := by rw [h]; rfl
  cases hpd : a.meta.publishDate with
  | none => refine ⟨?_, ?_, ?_, ?_, ?_⟩ <;> simp [publish_operation, h1, hpd]
  | some d => refine ⟨?_, ?_, ?_, ?_, ?_⟩ <;> simp [publish_operation, h1, hpd]

/-- Witness for C4 at a concrete never-published draft article. -/
theorem C4_publish_twice_witness :
    (publish_operation ⟨2025, 1, 2, 3, 4, 5⟩ ⟨⟨some true, none, some "T"⟩, "b"⟩).1 = true
    ∧ ((publish_operation ⟨2025, 1, 2, 3, 4, 5⟩
          ⟨⟨some true, none, some "T"⟩, "b"⟩).2.2).meta.draft = some false
    ∧ ((publish_operation ⟨2025, 1, 2, 3, 4, 5⟩
          ⟨⟨some true, none, some "T"⟩, "b"⟩).2.2).meta.publishDate
        = some ((none : Option String).getD (publish_stamp ⟨2025, 1, 2, 3, 4, 5⟩))
    ∧ ((publish_operation ⟨2025, 1, 2, 3, 4, 5⟩
          ⟨⟨some true, none, some "T"⟩, "b"⟩).2.2).body = "b"
    ∧ publish_operation ⟨2026, 6, 7, 8, 9, 10⟩
          ((publish_operation ⟨2025, 1, 2, 3, 4, 5⟩
            ⟨⟨some true, none, some "T"⟩, "b"⟩).2.2)
        = (false, "文章已经发布",
            (publish_operation ⟨2025, 1, 2, 3, 4, 5⟩
              ⟨⟨some true, none, some "T"⟩, "b"⟩).2.2) :=
  C4_publish_twice ⟨2025, 1, 2, 3, 4, 5⟩ ⟨2026, 6, 7, 8, 9, 10⟩
    ⟨⟨some true, none, some "T"⟩, "b"⟩ rfl

/-- C8 counterexample: for a metadata block with no `draft` key the parsed
record's draft flag is `false` — not `true` as the claim states — and
`publish_article`'s guard (`post.get('draft', False)`) rejects such a file
as already published instead of accepting it. -/
theorem C8_counterexample :
    blogpost_draft ⟨none, none, none⟩ = false
    ∧ (publish_operation ⟨2025, 1, 1, 0, 0, 0⟩ ⟨⟨none, none, none⟩, "b"⟩).1 = false
    ∧ (publish_operation ⟨2025, 1, 1, 0, 0, 0⟩ ⟨⟨none, none, none⟩, "b"⟩).2.1
        = "文章已经发布" := by
  exact ⟨rfl, rfl, rfl⟩

/-- C8 amended: a file whose metadata lacks the `draft` key is treated
inconsistently by the three operations: the parser defaults the flag to
`false`, publish rejects the file as already published (treating absence as
non-draft), while only `get_publish_status` defaults to `true`. -/
theorem C8_draft_default (m : FrontMeta) (b : String) (t : CnTime)
    (h : m.draft = none) :
    blogpost_draft m = false
    ∧ publish_operation t ⟨m, b⟩ = (false, "文章已经发布", ⟨m, b⟩)
    ∧ status_is_draft m = true := by
  refine ⟨?_, ?_, ?_⟩ <;>
    simp [blogpost_draft, status_is_draft, publish_operation, h]

/-- Witness for C8 at a concrete metadata block without a draft key. -/
theorem C8_draft_default_witness :
    blogpost_draft ⟨none, none, some "T"⟩ = false
    ∧ publish_operation ⟨2025, 1, 1, 0, 0, 0⟩ ⟨⟨none, none, some "T"⟩, "b"⟩
        = (false, "文章已经发布", ⟨⟨none, none, some "T"⟩, "b"⟩)
    ∧ status_is_draft ⟨none, none, some "T"⟩ = true :=
  C8_draft_default ⟨none, none, some "T"⟩ "b" ⟨2025, 1, 1, 0, 0, 0⟩ rfl

/-! ### Claim about refresh (`CacheService.refresh`). -/

/-- C3: evaluating the code at the failing input. After the service has
completed its first reconciliation (over a tree containing only `a.md`), a
new file `b.md` appears on disk; the spec says an explicit refresh always
runs a non-forced sync and would upsert it, but `refresh` —
`initialize(force_rebuild=False)` — hits the `_initialized` guard, returns
with the state unchanged and zero work done, and `b.md` stays absent from
the index. -/
theorem C3_refresh_noop :
    (let f1 : FsFile := ⟨"a.md", "post/a.md", false, 1, "T", "", "", [], [], "hello"⟩
     let f2 : FsFile := ⟨"b.md", "post/b.md", false, 2, "U", "", "", [], [], "world"⟩
     let st1 := (initCache 0 false [f1] ⟨[], false⟩).1
     refresh 1 [f1, f2] st1 = (st1, ⟨0, 0, 0⟩)
       ∧ get_post "b.md" (refresh 1 [f1, f2] st1).1.db = none) := by
  decide

/-! ### Claim C7: excerpt truncation. -/

/-- The excerpt as the specification sentence describes it (the claim side
of the refinement comparison): take the first 200 characters of the stripped
text, appending `...` exactly when the **stripped** text exceeds 200
characters. The code instead tests the length of the text before
`str.strip()`. -/
def excerpt_spec (content : String) : String :=
  if content = "" then ""
  else
    let s := pyStrip (stripMarks (stripLinks (stripHashes content.data)))
    if 200 < s.length then ⟨s.take 200 ++ ('.' :: '.' :: '.' :: [])⟩
    else ⟨s.take 200⟩

set_option maxRecDepth 4000 in
/-- C7 counterexample: a body of 198 plain characters followed by five
trailing spaces. The stripped text has 198 characters, so the claim says no
ellipsis; the code measures the unstripped 203 characters and appends one. -/
theorem C7_counterexample :
    generate_excerpt ⟨List.replicate 198 'a' ++ List.replicate 5 ' '⟩
      ≠ excerpt_spec ⟨List.replicate 198 'a' ++ List.replicate 5 ' '⟩
    ∧ generate_excerpt ⟨List.replicate 198 'a' ++ List.replicate 5 ' '⟩
        = ⟨List.replicate 198 'a' ++ ('.' :: '.' :: '.' :: [])⟩
    ∧ excerpt_spec ⟨List.replicate 198 'a' ++ List.replicate 5 ' '⟩
        = ⟨List.replicate 198 'a'⟩ := by
  decide

/-- Characters on which the whole markdown-stripping pipeline is the
identity: no heading marker, no link opener, no emphasis or code marker, and
no whitespace. -/
def plainBodyChar (c : Char) : Bool :=
  !(c = '#' || c = '[' || c = '*' || c = '_' || c = backtickC || pyWs c)

theorem stripH_id (l : List Char) (h : ∀ c ∈ l, ¬ c = '#') : stripH [] l = l := by
  induction l with
  | nil => rfl
  | cons c rest ih =>
    have hc : ¬ c = '#' := h c (by simp)
    have ih2 := ih (fun d hd => h d (by simp [hd]))
    simp [stripH, hc, ih2]

theorem tryLink_none (c : Char) (rest : List Char) (h : ¬ c = '[') :
    tryLink (c :: rest) = none := by
  simp [tryLink, h]

theorem stripLinksF_id (fuel : Nat) (l : List Char) (h : ∀ c ∈ l, ¬ c = '[') :
    stripLinksF fuel l = l := by
  induction fuel generalizing l with
  | zero => cases l <;> rfl
  | succ fuel ih =>
    cases l with
    | nil => rfl
    | cons c rest =>
      have hc : ¬ c = '[' := h c (by simp)
      simp only [stripLinksF, tryLink_none c rest hc]
      simp [ih rest (fun d hd => h d (by simp [hd]))]

theorem dropWhile_id (p : Char → Bool) (l : List Char) (h : ∀ c ∈ l, p c = false) :
    l.dropWhile p = l := by
  cases l with
  | nil => rfl
  | cons c rest => simp [List.dropWhile, h c (by simp)]

/-- C7 amended: for a body of plain characters (no markdown markup and no
whitespace) the excerpt is the first 200 characters, with `...` appended
exactly when the body exceeds 200 characters; in general the code's ellipsis
condition measures the text before `str.strip()` (see the counterexample). -/
theorem C7_excerpt_plain (body : String)
    (h : ∀ c ∈ body.data, plainBodyChar c = true) :
    generate_excerpt body
      = if 200 < body.data.length then ⟨body.data.take 200 ++ ('.' :: '.' :: '.' :: [])⟩
        else ⟨body.data.take 200⟩ := by
  have hplain : ∀ c ∈ body.data,
      ¬ c = '#' ∧ ¬ c = '[' ∧ ¬ c = '*' ∧ ¬ c = '_' ∧ ¬ c = backtickC
        ∧ pyWs c = false := by
    intro c hc
    have := h c hc
    simp [plainBodyChar] at this
    tauto
  by_cases hb : body = ""
  · subst hb
    decide
  · have e1 : stripHashes body.data = body.data :=
      stripH_id body.data (fun c hc => (hplain c hc).1)
    have e2 : stripLinks body.data = body.data :=
      stripLinksF_id body.data.length body.data (fun c hc => (hplain c hc).2.1)
    have e3 : stripMarks body.data = body.data := by
      unfold stripMarks
      rw [List.filter_eq_self]
      intro c hc
      have := hplain c hc
      simp [this.2.2.1, this.2.2.2.1, this.2.2.2.2.1]
    have e4 : pyStrip body.data = body.data := by
      unfold pyStrip
      rw [dropWhile_id _ _ (fun c hc => (hplain c hc).2.2.2.2.2)]
      rw [dropWhile_id _ _ (fun c hc =>
        (hplain c (List.mem_reverse.mp hc)).2.2.2.2.2)]
      exact List.reverse_reverse body.data
    have hgen : generate_excerpt body
        = (if 200 < (stripMarks (stripLinks (stripHashes body.data))).length
           then (⟨(pyStrip (stripMarks (stripLinks (stripHashes body.data)))).take 200
              ++ ('.' :: '.' :: '.' :: [])⟩ : String)
           else ⟨(pyStrip (stripMarks (stripLinks (stripHashes body.data)))).take 200⟩) := by
      unfold generate_excerpt
      rw [if_neg hb]
    rw [hgen, e1, e2, e3, e4]

set_option maxRecDepth 4000 in
/-- Witness for C7: the claim's own concrete instances — 250 plain
characters give a 200-character excerpt plus ellipsis, 150 plain characters
give the full 150 with no ellipsis. -/
theorem C7_excerpt_plain_witness :
    generate_excerpt ⟨List.replicate 250 'a'⟩
      = ⟨List.replicate 200 'a' ++ ('.' :: '.' :: '.' :: [])⟩
    ∧ generate_excerpt ⟨List.replicate 150 'a'⟩ = ⟨List.replicate 150 'a'⟩ := by
  constructor
  · rw [C7_excerpt_plain _ (by decide)]
    decide
  · rw [C7_excerpt_plain _ (by decide)]
    decide

/-! ### Claim C9: tag counts. -/

/-- Count lookup in the accumulator dictionary (0 for an absent key), the
semantic view of the Python `tag_count.get(tag, 0)`. -/
def lookupCnt (acc : List (String × Nat)) (t : String) : Nat :=
  match acc.find? (fun e => e.1 = t) with
  | some e => e.2
  | none => 0

theorem lookupCnt_cons (k : String) (m : Nat) (rest : List (String × Nat)) (s : String) :
    lookupCnt ((k, m) :: rest) s = if k = s then m else lookupCnt rest s := by
  by_cases h : k = s
  · have hf : List.find? (fun e => e.1 = s) ((k, m) :: rest) = some (k, m) :=
      List.find?_cons_of_pos _ (by simp [h])
    simp [lookupCnt, hf, h]
  · have hf : List.find? (fun e => e.1 = s) ((k, m) :: rest)
        = List.find? (fun e => e.1 = s) rest :=
      List.find?_cons_of_neg _ (by simp [h])
    simp [lookupCnt, hf, h]

theorem bump_lookup (acc : List (String × Nat)) (t s : String) :
    lookupCnt (bump acc t) s
      = if s = t then lookupCnt acc s + 1 else lookupCnt acc s := by
  induction acc with
  | nil =>
    rw [show bump [] t = [(t, 1)] from rfl, lookupCnt_cons]
    by_cases hs : s = t
    · subst hs; simp [lookupCnt]
    · have ht : ¬ t = s := fun h => hs h.symm
      simp [ht, hs, lookupCnt]
  | cons e acc ih =>
    obtain ⟨k, n⟩ := e
    by_cases hk : k = t
    · subst hk
      rw [show bump ((k, n) :: acc) k = (k, n + 1) :: acc from by simp [bump],
        lookupCnt_cons, lookupCnt_cons]
      by_cases hs : k = s
      · subst hs
        simp
      · have hsk : ¬ s = k := fun h => hs h.symm
        simp [hs, hsk]
    · rw [show bump ((k, n) :: acc) t = (k, n) :: bump acc t from by simp [bump, hk],
        lookupCnt_cons, lookupCnt_cons, ih]
      by_cases hs : k = s
      · have hst : ¬ s = t := fun h => hk ((hs.trans h))
        simp [hs, hst]
      · simp [hs]

theorem bump_keys (acc : List (String × Nat)) (t : String) :
    (bump acc t).map Prod.fst
      = if t ∈ acc.map Prod.fst then acc.map Prod.fst
        else acc.map Prod.fst ++ [t] := by
  induction acc with
  | nil => simp [bump]
  | cons e acc ih =>
    obtain ⟨k, n⟩ := e
    by_cases hk : k = t
    · subst hk; simp [bump]
    · simp only [bump, if_neg hk, List.map_cons, List.mem_cons]
      have hne : ¬ t = k := fun h => hk h.symm
      by_cases ht : t ∈ acc.map Prod.fst
      · simp [ht, hne, ih]
      · simp [ht, hne, ih]

theorem bump_pos (acc : List (String × Nat)) (t : String)
    (h : ∀ e ∈ acc, 0 < e.2) : ∀ e ∈ bump acc t, 0 < e.2 := by
  induction acc with
  | nil => intro e he; simp [bump] at he; subst he; simp
  | cons a acc ih =>
    obtain ⟨k, n⟩ := a
    intro e he
    by_cases hk : k = t
    · subst hk
      rw [show bump ((k, n) :: acc) k = (k, n + 1) :: acc from by simp [bump]] at he
      rcases List.mem_cons.mp he with h1 | h1
      · subst h1; simp
      · exact h e (List.mem_cons_of_mem _ h1)
    · rw [show bump ((k, n) :: acc) t = (k, n) :: bump acc t
          from by simp [bump, hk]] at he
      rcases List.mem_cons.mp he with h1 | h1
      · subst h1; exact h (k, n) (List.mem_cons_self _ _)
      · exact ih (fun e2 he2 => h e2 (List.mem_cons_of_mem _ he2)) e h1

theorem bump_nodup (acc : List (String × Nat)) (t : String)
    (h : (acc.map Prod.fst).Nodup) : ((bump acc t).map Prod.fst).Nodup := by
  rw [bump_keys]
  by_cases ht : t ∈ acc.map Prod.fst
  · simp [ht, h]
  · simp [ht, h, List.nodup_append]

theorem mem_iff_lookupCnt (acc : List (String × Nat))
    (hnd : (acc.map Prod.fst).Nodup) (hpos : ∀ e ∈ acc, 0 < e.2)
    (t : String) (n : Nat) :
    (t, n) ∈ acc ↔ lookupCnt acc t = n ∧ 0 < n := by
  induction acc with
  | nil =>
    simp only [List.not_mem_nil, false_iff]
    rintro ⟨h1, h2⟩
    simp [lookupCnt] at h1
    omega
  | cons e acc ih =>
    obtain ⟨k, m⟩ := e
    simp only [List.map_cons, List.nodup_cons] at hnd
    have hk := hnd.1
    have ihh := ih hnd.2 (fun e2 he2 => hpos e2 (List.mem_cons_of_mem _ he2))
    rw [lookupCnt_cons]
    by_cases hkt : k = t
    · rw [if_pos hkt]
      constructor
      · intro hmem
        rcases List.mem_cons.mp hmem with h1 | h1
        · injection h1 with h1a h1b
          exact ⟨h1b.symm, by
            have := hpos (t, n) hmem
            simpa using this⟩
        · have hmk : k ∈ acc.map Prod.fst := by
            rw [hkt]
            exact List.mem_map.mpr ⟨(t, n), h1, rfl⟩
          exact absurd hmk hk
      · rintro ⟨h1, h2⟩
        subst h1
        exact List.mem_cons.mpr (Or.inl (by simp [hkt]))
    · rw [if_neg hkt]
      constructor
      · intro hmem
        rcases List.mem_cons.mp hmem with h1 | h1
        · injection h1 with h1a h1b
          exact absurd h1a.symm hkt
        · exact ihh.mp h1
      · intro hh
        exact List.mem_cons_of_mem _ (ihh.mpr hh)

theorem foldl_bump_lookup (ts : List String) (acc : List (String × Nat)) (s : String) :
    lookupCnt (ts.foldl bump acc) s = lookupCnt acc s + ts.count s := by
  induction ts generalizing acc with
  | nil => simp
  | cons u ts ih =>
    rw [List.foldl_cons, ih, bump_lookup]
    by_cases hs : s = u
    · subst hs
      simp [List.count_cons]
      omega
    · have hus : (u == s) = false := by
        simp only [beq_eq_false_iff_ne, ne_eq]
        exact fun h => hs h.symm
      simp [List.count_cons, hs, hus]

theorem foldl_bump_nodup (ts : List String) (acc : List (String × Nat))
    (h : (acc.map Prod.fst).Nodup) : ((ts.foldl bump acc).map Prod.fst).Nodup := by
  induction ts generalizing acc with
  | nil => exact h
  | cons u ts ih => exact ih _ (bump_nodup acc u h)

theorem foldl_bump_pos (ts : List String) (acc : List (String × Nat))
    (h : ∀ e ∈ acc, 0 < e.2) : ∀ e ∈ ts.foldl bump acc, 0 < e.2 := by
  induction ts generalizing acc with
  | nil => exact h
  | cons u ts ih => exact ih _ (bump_pos acc u h)

/-- The number of occurrences of a tag across all records, a record listing
the tag several times contributing each occurrence — the corrected count
semantics of the amended claim. -/
def occCount (t : String) : List Row → Nat
  | [] => 0
  | r :: db =>
    (match loadsList r.tags with
     | some ts => ts.count t
     | none => 0) + occCount t db

theorem countTags_lookup (db : List Row) (acc : List (String × Nat)) (t : String) :
    lookupCnt (db.foldl (fun acc r =>
        match loadsList r.tags with
        | some ts => ts.foldl bump acc
        | none => acc) acc) t = lookupCnt acc t + occCount t db := by
  induction db generalizing acc with
  | nil => simp [occCount]
  | cons r db ih =>
    rw [List.foldl_cons, ih]
    cases hl : loadsList r.tags with
    | none => simp [occCount, hl]
    | some ts =>
      simp only [occCount, hl, foldl_bump_lookup]
      omega

theorem countTags_nodup (db : List Row) :
    ((countTags db).map Prod.fst).Nodup := by
  unfold countTags
  generalize hacc : ([] : List (String × Nat)) = acc
  have hnd : (acc.map Prod.fst).Nodup := by rw [← hacc]; simp
  clear hacc
  induction db generalizing acc with
  | nil => exact hnd
  | cons r db ih =>
    rw [List.foldl_cons]
    cases hl : loadsList r.tags with
    | none => simp only [hl]; exact ih _ hnd
    | some ts => simp only [hl]; exact ih _ (foldl_bump_nodup ts acc hnd)

theorem countTags_pos (db : List Row) : ∀ e ∈ countTags db, 0 < e.2 := by
  unfold countTags
  generalize hacc : ([] : List (String × Nat)) = acc
  have hpos : ∀ e ∈ acc, 0 < e.2 := by rw [← hacc]; simp
  clear hacc
  induction db generalizing acc with
  | nil => exact hpos
  | cons r db ih =>
    rw [List.foldl_cons]
    cases hl : loadsList r.tags with
    | none => simp only [hl]; exact ih _ hpos
    | some ts => simp only [hl]; exact ih _ (foldl_bump_pos ts acc hpos)

instance : IsTotal (String × Nat) (fun a b => b.2 ≤ a.2) :=
  ⟨fun a b => Nat.le_total b.2 a.2⟩

instance : IsTrans (String × Nat) (fun a b => b.2 ≤ a.2) :=
  ⟨fun _ _ _ h1 h2 => Nat.le_trans h2 h1⟩

/-- A one-tag-list row used by the C9 statements (all non-tag fields are
irrelevant to `get_all_tags`). -/
def c9row (p : String) (tags : List String) : Row :=
  { file_path := p, relative_path := p, title := "", date := "",
    description := "", excerpt := "", tags := dumpsList tags,
    categories := dumpsList [], mod_time := 0, cached_at := 0 }

/-- C9 counterexample: one record whose tags list is `["a", "a"]`. The code
reports count 2 for `a` (occurrence count), while only one stored record has
`a` among its tags, so the claimed number-of-records count semantics gives
1. -/
theorem C9_counterexample :
    get_all_tags [c9row "p" ["a", "a"]] = [("a", 2)]
    ∧ (([c9row "p" ["a", "a"]] : List Row).filter
        (fun r => ((loadsList r.tags).getD []).contains "a")).length = 1 := by
  decide

/-- C9 amended: `get_all_tags` returns one entry per distinct tag whose
count is the number of **occurrences** of the tag across all records' tags
sequences (a record listing a tag twice contributes two), sorted descending
by count with ties kept in first-encountered order; on records with tags
`[a,b]`, `[a]`, `[b,c]` it returns `a:2, b:2, c:1` with `a` before `b`. -/
theorem C9_tag_counts :
    get_all_tags [c9row "p1" ["a", "b"], c9row "p2" ["a"], c9row "p3" ["b", "c"]]
      = [("a", 2), ("b", 2), ("c", 1)]
    ∧ (∀ (db : List Row) (t : String) (n : Nat),
        (t, n) ∈ get_all_tags db ↔ occCount t db = n ∧ 0 < n)
    ∧ (∀ db : List Row,
        List.Sorted (fun a b => b.2 ≤ a.2) (get_all_tags db)) := by
  refine ⟨by decide, fun db t n => ?_, fun db => ?_⟩
  · unfold get_all_tags
    rw [(List.perm_insertionSort (fun a b => b.2 ≤ a.2) (countTags db)).mem_iff]
    rw [mem_iff_lookupCnt (countTags db) (countTags_nodup db) (countTags_pos db)]
    unfold countTags
    rw [countTags_lookup]
    simp [lookupCnt]
  · exact List.sorted_insertionSort (fun a b => b.2 ≤ a.2) (countTags db)

/-! ### Claims C1 and C2: convergence and idempotence of reconciliation. -/

theorem sync_pair (now : Time) (force : Bool) (fs : List FsFile) (db : List Row) :
    sync now force fs db
      = ((syncToDelete fs db).foldl (fun d q => delete_post q d)
          ((syncToUpdate force fs db).foldl
            (fun d f => upsert_post now (fsPostData f) d) db),
         { updates := (syncToUpdate force fs db).length,
           deletes := (syncToDelete fs db).length,
           parses := (fs.filter (fun f => !f.isDir)).length }) := rfl

theorem get_post_foldl_upsert_not_mem :
    ∀ (l : List FsFile) (db : List Row) (now : Time) (p : String),
      (∀ f ∈ l, f.path ≠ p) →
      get_post p (l.foldl (fun d f => upsert_post now (fsPostData f) d) db)
        = get_post p db := by
  intro l
  induction l with
  | nil => intro db now p _; rfl
  | cons g l ih =>
    intro db now p h
    rw [List.foldl_cons, ih _ now p (fun f hf => h f (List.mem_cons_of_mem _ hf)),
      get_post_upsert, if_neg]
    exact h g (List.mem_cons_self _ _)

theorem get_post_foldl_upsert_mem :
    ∀ (l : List FsFile) (db : List Row) (now : Time) (f : FsFile),
      f ∈ l → (l.map (fun g => g.path)).Nodup →
      get_post f.path (l.foldl (fun d f => upsert_post now (fsPostData f) d) db)
        = some (row_to_dict (postRow now (fsPostData f))) := by
  intro l
  induction l with
  | nil => intro db now f hf; cases hf
  | cons g l ih =>
    intro db now f hf hnd
    simp only [List.map_cons, List.nodup_cons] at hnd
    rw [List.foldl_cons]
    rcases List.mem_cons.mp hf with heq | h1
    · have hnot : ∀ g2 ∈ l, g2.path ≠ f.path := fun g2 hg2 he =>
        hnd.1 (List.mem_map.mpr ⟨g2, hg2, by rw [he, heq]⟩)
      rw [get_post_foldl_upsert_not_mem l _ now f.path hnot, get_post_upsert, heq,
        if_pos (show (fsPostData g).file_path = g.path from rfl)]
    · exact ih _ now f h1 hnd.2

theorem get_post_foldl_delete :
    ∀ (l : List String) (db : List Row) (p : String),
      get_post p (l.foldl (fun d q => delete_post q d) db)
        = if p ∈ l then none else get_post p db := by
  intro l
  induction l with
  | nil => intro db p; simp
  | cons q l ih =>
    intro db p
    rw [List.foldl_cons, ih]
    by_cases hp : p ∈ l
    · simp [hp]
    · rw [if_neg hp, get_post_delete]
      by_cases hq : q = p
      · subst hq; simp
      · have hpq : ¬ p = q := fun h => hq h.symm
        have : ¬ p ∈ q :: l := by simp [hp, hpq]
        simp [hq, this]

theorem nodup_paths_filter (fs : List FsFile) (pr : FsFile → Bool)
    (hnd : (fs.map (fun f => f.path)).Nodup) :
    ((fs.filter pr).map (fun f => f.path)).Nodup :=
  (((List.filter_sublist fs).map (fun f => f.path))).nodup hnd

/-- Presence half of the convergence property: after one reconciliation pass
every eligible post is in the index with the current `mod_time` (either it
was just upserted, or it was already present with an unchanged stamp). -/
theorem sync_keeps (now : Time) (force : Bool) (fs : List FsFile) (db : List Row)
    (hnd : (fs.map (fun f => f.path)).Nodup) :
    ∀ f ∈ fs, (!f.isDir && !(f.title = "" && f.content = "")) = true →
      ∃ o, get_post f.path (sync now force fs db).1 = some o
        ∧ o.mod_time = f.mtime := by
  intro f hf helig
  have hfc : f ∈ get_blog_posts fs := List.mem_filter.mpr ⟨hf, helig⟩
  have hcur : f.path ∈ (get_blog_posts fs).map (fun g => g.path) :=
    List.mem_map.mpr ⟨f, hfc, rfl⟩
  have hndc : ((get_blog_posts fs).map (fun g => g.path)).Nodup :=
    nodup_paths_filter fs _ hnd
  have hndU : ((syncToUpdate force fs db).map (fun g => g.path)).Nodup :=
    nodup_paths_filter _ _ hndc
  have hnotdel : f.path ∉ syncToDelete fs db := by
    intro hmem
    have h2 := (List.mem_filter.mp hmem).2
    simp [hcur] at h2
  rw [sync_pair]
  rw [get_post_foldl_delete, if_neg hnotdel]
  by_cases hup : f ∈ syncToUpdate force fs db
  · rw [get_post_foldl_upsert_mem _ _ now f hup hndU]
    exact ⟨_, rfl, rfl⟩
  · have hnpred : ¬ (force
        || !((get_all_file_paths db).contains f.path)
        || (match get_post f.path db with
            | some cp => cp.mod_time ≠ f.mtime
            | none => false)) = true :=
      fun hc => hup (List.mem_filter.mpr ⟨hfc, hc⟩)
    simp only [Bool.or_eq_true, not_or, Bool.not_eq_true'] at hnpred
    obtain ⟨⟨hforce, hcont⟩, hmatch⟩ := hnpred
    have hcontmem : f.path ∈ get_all_file_paths db := by
      cases hmem : decide (f.path ∈ get_all_file_paths db) with
      | true => exact of_decide_eq_true hmem
      | false =>
        have : (get_all_file_paths db).contains f.path = false := by
          simp [of_decide_eq_false hmem]
        rw [this] at hcont
        simp at hcont
    obtain ⟨o, ho⟩ := (get_post_some_iff f.path db).mpr hcontmem
    rw [ho] at hmatch
    have hmt : o.mod_time = f.mtime := by
      by_cases hmt : o.mod_time = f.mtime
      · exact hmt
      · simp [hmt] at hmatch
    have hnotU : ∀ g ∈ syncToUpdate force fs db, g.path ≠ f.path := by
      intro g hg he
      have hgc : g ∈ get_blog_posts fs := List.mem_of_mem_filter hg
      have : g = f := List.inj_on_of_nodup_map hndc hgc hfc he
      exact hup (this ▸ hg)
    rw [get_post_foldl_upsert_not_mem _ _ now f.path hnotU, ho]
    exact ⟨o, rfl, hmt⟩

/-- Deletion half of the convergence property: after one reconciliation pass
every path in the index belongs to an eligible post of the tree. -/
theorem sync_only (now : Time) (force : Bool) (fs : List FsFile) (db : List Row) :
    ∀ p : String, (∃ o, get_post p (sync now force fs db).1 = some o) →
      ∃ f, f ∈ fs ∧ (!f.isDir && !(f.title = "" && f.content = "")) = true
        ∧ f.path = p := by
  intro p ⟨o, ho⟩
  rw [sync_pair, get_post_foldl_delete] at ho
  by_cases hdel : p ∈ syncToDelete fs db
  · rw [if_pos hdel] at ho; cases ho
  · rw [if_neg hdel] at ho
    by_cases hcur : p ∈ (get_blog_posts fs).map (fun f => f.path)
    · obtain ⟨f, hf, hfp⟩ := List.mem_map.mp hcur
      have hfil := List.mem_filter.mp hf
      exact ⟨f, hfil.1, hfil.2, hfp⟩
    · have hnotU : ∀ g ∈ syncToUpdate force fs db, g.path ≠ p := by
        intro g hg he
        exact hcur (he ▸ List.mem_map.mpr ⟨g, List.mem_of_mem_filter hg, rfl⟩)
      rw [get_post_foldl_upsert_not_mem _ _ now p hnotU] at ho
      have hpc : p ∈ get_all_file_paths db := (get_post_some_iff p db).mp ⟨o, ho⟩
      have : p ∈ syncToDelete fs db := by
        apply List.mem_filter.mpr
        refine ⟨List.mem_dedup.mpr hpc, ?_⟩
        simp [hcur]
      exact absurd this hdel

/-- The specification's eligibility notion for C1 (the claim side of the
refinement comparison): a regular file with the tracked extension under the
content root. The `fs` list holds exactly the `rglob("*.md")` matches of the
walked tree, so the extension condition is implicit and eligibility is
"not a directory". -/
def spec_eligible (f : FsFile) : Bool := !f.isDir

/-- C1 counterexample: an empty `.md` regular file. It is eligible in the
claim's sense, but it parses to an empty record (no title, no content), so
`get_blog_posts` skips it and one full reconciliation leaves the index empty
— the stored path set is not equal to the eligible-file set. -/
theorem C1_counterexample :
    (let f0 : FsFile := ⟨"empty.md", "post/empty.md", false, 3, "", "", "", [], [], ""⟩
     spec_eligible f0 = true
       ∧ (sync 0 false [f0] []).1 = []
       ∧ get_post "empty.md" (sync 0 false [f0] []).1 = none) := by
  decide

/-- C1 amended: for a tree with distinct paths, one reconciliation pass makes
the index contain exactly the eligible files **that parse to a non-empty
record** (non-empty title or non-empty content) — such files are present
with their current `mod_time`, and every stored path belongs to such a
file. -/
theorem C1_sync_convergence (now : Time) (force : Bool) (fs : List FsFile)
    (db : List Row) (hnd : (fs.map (fun f => f.path)).Nodup) :
    (∀ f ∈ fs, (!f.isDir && !(f.title = "" && f.content = "")) = true →
      ∃ o, get_post f.path (sync now force fs db).1 = some o
        ∧ o.mod_time = f.mtime)
    ∧ (∀ p : String, (∃ o, get_post p (sync now force fs db).1 = some o) →
        ∃ f, f ∈ fs ∧ (!f.isDir && !(f.title = "" && f.content = "")) = true
          ∧ f.path = p) :=
  ⟨sync_keeps now force fs db hnd, sync_only now force fs db⟩

/-- Witness for C1 on a one-file tree and an empty index. -/
theorem C1_sync_convergence_witness :
    ∃ o, get_post "a.md"
        (sync 0 false [⟨"a.md", "post/a.md", false, 5, "T", "", "", [], [], "x"⟩] []).1
      = some o ∧ o.mod_time = 5 :=
  (C1_sync_convergence 0 false
      [⟨"a.md", "post/a.md", false, 5, "T", "", "", [], [], "x"⟩] [] (by decide)).1
    ⟨"a.md", "post/a.md", false, 5, "T", "", "", [], [], "x"⟩ (by decide) (by decide)

/-- C2 counterexample: one unchanged file, the reconciliation pass run twice.
The second pass performs zero upserts and zero deletes, but one file parse —
`get_blog_posts` re-parses every file to build the snapshot — so the claimed
"zero file parses during the second run" is false. -/
theorem C2_counterexample :
    (let f1 : FsFile := ⟨"a.md", "post/a.md", false, 1, "T", "", "", [], [], "x"⟩
     (sync 1 false [f1] (sync 0 false [f1] []).1).2
       = { updates := 0, deletes := 0, parses := 1 }) := by
  decide

/-- C2 amended: with no filesystem change, a second (non-forced)
reconciliation pass performs zero upserts and zero deletes and leaves the
database identical — so queries return identical results — but it still
parses every non-directory file of the tree to build the snapshot (the parse
count equals the file count, not zero). A second `initialize()` call on the
same service instance is skipped entirely by the `_initialized` guard. -/
theorem C2_idempotent (now now2 : Time) (force : Bool) (fs : List FsFile)
    (db0 : List Row) (hnd : (fs.map (fun f => f.path)).Nodup) :
    sync now2 false fs (sync now force fs db0).1
      = ((sync now force fs db0).1,
         { updates := 0, deletes := 0,
           parses := (fs.filter (fun f => !f.isDir)).length }) := by
  have hU : syncToUpdate false fs (sync now force fs db0).1 = [] := by
    unfold syncToUpdate
    rw [List.filter_eq_nil_iff]
    intro f hfc
    have hfil := List.mem_filter.mp hfc
    obtain ⟨o, ho, hmt⟩ := sync_keeps now force fs db0 hnd f hfil.1 hfil.2
    have hmem : f.path ∈ get_all_file_paths (sync now force fs db0).1 :=
      (get_post_some_iff _ _).mp ⟨o, ho⟩
    simp [ho, hmem, hmt]
  have hD : syncToDelete fs (sync now force fs db0).1 = [] := by
    unfold syncToDelete
    rw [List.filter_eq_nil_iff]
    intro q hq
    have hqc : q ∈ get_all_file_paths (sync now force fs db0).1 := List.mem_dedup.mp hq
    obtain ⟨o, ho⟩ := (get_post_some_iff q _).mpr hqc
    obtain ⟨f, hfm, helig, hfp⟩ := sync_only now force fs db0 q ⟨o, ho⟩
    have hqcur : q ∈ (get_blog_posts fs).map (fun f => f.path) :=
      List.mem_map.mpr ⟨f, List.mem_filter.mpr ⟨hfm, helig⟩, hfp⟩
    simp [hqcur]
  rw [sync_pair now2 false fs (sync now force fs db0).1, hU, hD]
  rfl

/-- Witness for C2 on a one-file tree. -/
theorem C2_idempotent_witness :
    sync 1 false [⟨"a.md", "post/a.md", false, 1, "T", "", "", [], [], "x"⟩]
        (sync 0 false [⟨"a.md", "post/a.md", false, 1, "T", "", "", [], [], "x"⟩] []).1
      = ((sync 0 false [⟨"a.md", "post/a.md", false, 1, "T", "", "", [], [], "x"⟩] []).1,
         { updates := 0, deletes := 0, parses := 1 }) :=
  C2_idempotent 0 1 false
    [⟨"a.md", "post/a.md", false, 1, "T", "", "", [], [], "x"⟩] [] (by decide)

/-! ### Claim C5: path-escape rejection. -/

theorem listPre_append_self (s x : List Char) : listPre s (s ++ x) = true := by
  induction s with
  | nil => rfl
  | cons a s ih => simp [listPre, ih]

/-- Comparing two rendered paths segment by segment: when two slash-free
segments open prefix-compared strings whose tails are empty or start with a
slash, either the segments agree and the comparison continues on the tails,
or the pattern side is exhausted and the text segment strictly extends the
pattern segment. -/
theorem listPre_seg (s : List Char) :
    ∀ (t X Y : List Char), (∀ c ∈ s, ¬ c = '/') → (∀ c ∈ t, ¬ c = '/') →
    (X = [] ∨ ∃ w, X = '/' :: w) → (Y = [] ∨ ∃ w, Y = '/' :: w) →
    listPre (s ++ X) (t ++ Y) = true →
    (s = t ∧ listPre X Y = true) ∨ (X = [] ∧ ∃ e, e ≠ [] ∧ t = s ++ e) := by
  induction s with
  | nil =>
    intro t X Y hs ht hX hY h
    cases t with
    | nil => exact Or.inl ⟨rfl, by simpa using h⟩
    | cons c t' =>
      rcases hX with hX0 | ⟨w, hXw⟩
      · exact Or.inr ⟨hX0, c :: t', by simp, rfl⟩
      · rw [hXw] at h
        simp only [List.nil_append, List.cons_append, listPre, Bool.and_eq_true,
          decide_eq_true_eq] at h
        exact absurd h.1.symm (ht c (by simp))
  | cons a s' ih =>
    intro t X Y hs ht hX hY h
    cases t with
    | nil =>
      rcases hY with hY0 | ⟨w, hYw⟩
      · rw [hY0] at h
        simp [listPre] at h
      · rw [hYw] at h
        simp only [List.nil_append, List.cons_append, listPre, Bool.and_eq_true,
          decide_eq_true_eq] at h
        exact absurd h.1 (hs a (by simp))
    | cons b t' =>
      simp only [List.cons_append, listPre, Bool.and_eq_true, decide_eq_true_eq] at h
      obtain ⟨hab, hrest⟩ := h
      subst hab
      rcases ih t' X Y (fun c hc => hs c (by simp [hc]))
          (fun c hc => ht c (by simp [hc])) hX hY hrest with
        ⟨hst, hcont⟩ | ⟨hX0, e, he, hte⟩
      · exact Or.inl ⟨by rw [hst], hcont⟩
      · exact Or.inr ⟨hX0, e, he, by simp [hte]⟩

theorem renderAbs_headSlash (l : List (List Char)) :
    renderAbs l = [] ∨ ∃ w, renderAbs l = '/' :: w := by
  cases l with
  | nil => exact Or.inl rfl
  | cons s rest => exact Or.inr ⟨s ++ renderAbs rest, rfl⟩

theorem renderAbs_eq_nil (l : List (List Char)) (h : renderAbs l = []) : l = [] := by
  cases l with
  | nil => rfl
  | cons s rest => simp [renderAbs] at h

/-- The structure theorem for `str.startswith` on rendered resolved paths:
if the rendering of `r` is a string prefix of the rendering of `p` (with all
segments slash-free), then either `p` extends `r` segment-wise, or `p`
diverges exactly at the last segment of `r` by extending that segment's
name. -/
theorem listPre_render (r : List (List Char)) :
    ∀ p : List (List Char),
    (∀ s ∈ r, ∀ c ∈ s, ¬ c = '/') → (∀ s ∈ p, ∀ c ∈ s, ¬ c = '/') →
    listPre (renderAbs r) (renderAbs p) = true →
    (∃ suf, p = r ++ suf)
    ∨ (∃ pre s e rest, r = pre ++ [s] ∧ e ≠ [] ∧ p = pre ++ [s ++ e] ++ rest) := by
  induction r with
  | nil => intro p _ _ _; exact Or.inl ⟨p, rfl⟩
  | cons s r' ih =>
    intro p hr hp h
    cases p with
    | nil => simp [renderAbs, listPre] at h
    | cons t p' =>
      simp only [renderAbs, List.cons_append, listPre, Bool.and_eq_true,
        decide_eq_true_eq, true_and] at h
      have h2 : listPre (s ++ renderAbs r') (t ++ renderAbs p') = true := h
      have hstep := listPre_seg s t (renderAbs r') (renderAbs p')
        (hr s (by simp)) (hp t (by simp))
        (renderAbs_headSlash r') (renderAbs_headSlash p') h2
      rcases hstep with ⟨hst, hcont⟩ | ⟨hX0, e, he, hte⟩
      · subst hst
        rcases ih p' (fun u hu => hr u (by simp [hu]))
            (fun u hu => hp u (by simp [hu])) hcont with
          ⟨suf, hsuf⟩ | ⟨pre, s2, e, rest, h1, hne, h3⟩
        · exact Or.inl ⟨suf, by rw [hsuf]; rfl⟩
        · exact Or.inr ⟨s :: pre, s2, e, rest, by simp [h1], hne, by simp [h3]⟩
      · have hr0 : r' = [] := renderAbs_eq_nil r' hX0
        exact Or.inr ⟨[], s, e, p', by simp [hr0], he, by simp [hte]⟩

/-- The decidable sibling-extension test: the resolved argument agrees with
the resolved root on all but the root's last segment, and at that position
carries a segment that strictly extends the root's last segment's name
stringwise (the shape that slips past `str.startswith`). -/
def sibExt (r p : List (List Char)) : Bool :=
  match r.getLast?, (p.drop (r.length - 1)).head? with
  | some s, some t2 =>
    (p.take (r.length - 1) = r.take (r.length - 1))
      && listPre s t2 && !(t2 = s)
  | _, _ => false

theorem mem_resolve_fold (l : List (List Char)) :
    ∀ acc : List (List Char),
    ∀ s ∈ l.foldl (fun acc u =>
        if u = ('.' :: '.' :: []) then acc.dropLast
        else if u = ('.' :: []) then acc
        else acc ++ [u]) acc, s ∈ acc ∨ s ∈ l := by
  induction l with
  | nil => intro acc s hs; exact Or.inl hs
  | cons u l ih =>
    intro acc s hs
    rw [List.foldl_cons] at hs
    rcases ih _ s hs with hacc | hl
    · by_cases h1 : u = ('.' :: '.' :: [])
      · rw [if_pos h1] at hacc
        exact Or.inl (List.dropLast_subset acc hacc)
      · rw [if_neg h1] at hacc
        by_cases h2 : u = ('.' :: [])
        · rw [if_pos h2] at hacc
          exact Or.inl hacc
        · rw [if_neg h2] at hacc
          rcases List.mem_append.mp hacc with h3 | h3
          · exact Or.inl h3
          · simp at h3
            exact Or.inr (by simp [h3])
    · exact Or.inr (List.mem_cons_of_mem _ hl)

theorem resolveSegs_noSlash (l : List (List Char))
    (h : ∀ s ∈ l, ∀ c ∈ s, ¬ c = '/') :
    ∀ s ∈ resolveSegs l, ∀ c ∈ s, ¬ c = '/' := by
  intro s hs
  rcases mem_resolve_fold l [] s hs with h0 | hl
  · cases h0
  · exact h s hl

/-- C5 counterexample: content root `/c`, argument `/cc/x.md` — a sibling
directory whose name extends the root's name stringwise. The resolved
argument is outside the root (it does not extend it segment-wise), yet
`_is_safe_path`'s `str.startswith` check passes, and publish succeeds and
writes the file instead of failing with the forbidden-path condition. -/
theorem C5_counterexample :
    (let root : List (List Char) := [['c']]
     let arg : PathArg := ⟨true, [['c', 'c'], ['x', '.', 'm', 'd']]⟩
     let fs : FileSys :=
       [([['c', 'c'], ['x', '.', 'm', 'd']], ⟨⟨some true, none, some "T"⟩, "b"⟩)]
     (resolveSegs (argAbs root arg)).take (resolveSegs root).length ≠ resolveSegs root
       ∧ (publish_article root ⟨2025, 1, 1, 0, 0, 0⟩ arg fs).1 = true
       ∧ (publish_article root ⟨2025, 1, 1, 0, 0, 0⟩ arg fs).2.2 ≠ fs) := by
  decide

/-- C5 amended: every argument whose resolved path lies outside the content
root **and** is not a sibling whose segment at the root's last position
strictly extends the root's last segment's name is rejected with the
forbidden-path message and no filesystem write; the excluded sibling shape
(e.g. root `/c`, path `/cc/x.md`) slips past the `str.startswith` check
(see the counterexample). -/
theorem C5_path_escape (root : List (List Char)) (t : CnTime) (a : PathArg)
    (fs : FileSys)
    (hroot : ∀ s ∈ root, ∀ c ∈ s, ¬ c = '/')
    (harg : ∀ s ∈ a.segs, ∀ c ∈ s, ¬ c = '/')
    (hout : (resolveSegs (argAbs root a)).take (resolveSegs root).length
      ≠ resolveSegs root)
    (hsib : sibExt (resolveSegs root) (resolveSegs (argAbs root a)) = false) :
    publish_article root t a fs = (false, "访问被拒绝:文件不在允许的目录中", fs) := by
  have hargAbs : ∀ s ∈ argAbs root a, ∀ c ∈ s, ¬ c = '/' := by
    intro s hs
    unfold argAbs at hs
    by_cases hb : a.absolute
    · rw [if_pos hb] at hs; exact harg s hs
    · rw [if_neg hb] at hs
      rcases List.mem_append.mp hs with h1 | h1
      · exact hroot s h1
      · exact harg s h1
  have hsafe : is_safe_path root (argAbs root a) = false := by
    by_contra hc
    have htrue : listPre (renderAbs (resolveSegs root))
        (renderAbs (resolveSegs (argAbs root a))) = true := by
      have h1 : is_safe_path root (argAbs root a) = true := by
        cases hb : is_safe_path root (argAbs root a) with
        | true => rfl
        | false => exact absurd hb hc
      exact h1
    have hkey := listPre_render (resolveSegs root) (resolveSegs (argAbs root a))
      (resolveSegs_noSlash root hroot) (resolveSegs_noSlash _ hargAbs) htrue
    rcases hkey with ⟨suf, hsuf⟩ | ⟨pre, s, e, rest, h1, hne, h3⟩
    · exact hout (by rw [hsuf]; exact List.take_left _ _)
    · have hlen : (resolveSegs root).length - 1 = pre.length := by
        rw [h1]; simp
      have hlast : (resolveSegs root).getLast? = some s := by
        rw [h1]; exact List.getLast?_concat pre
      have hdrop : ((resolveSegs (argAbs root a)).drop
          ((resolveSegs root).length - 1)).head? = some (s ++ e) := by
        rw [hlen, h3,
          show pre ++ [s ++ e] ++ rest = pre ++ ((s ++ e) :: rest) from by simp,
          List.drop_left pre]
        exact List.head?_cons
      have htake : (resolveSegs (argAbs root a)).take ((resolveSegs root).length - 1)
          = (resolveSegs root).take ((resolveSegs root).length - 1) := by
        rw [hlen, h3, h1,
          show pre ++ [s ++ e] ++ rest = pre ++ ((s ++ e) :: rest) from by simp,
          List.take_left pre, List.take_left pre]
      have hsib2 : sibExt (resolveSegs root) (resolveSegs (argAbs root a)) = true := by
        unfold sibExt
        rw [hlast, hdrop]
        simp [htake, listPre_append_self, List.append_right_eq_self, hne]
      rw [hsib2] at hsib
      exact Bool.noConfusion hsib
  simp [publish_article, hsafe]

/-- Witness for C5 at the spec's own instance: content root
`/srv/blog/content`, argument `../../etc/passwd`, which resolves to
`/srv/etc/passwd`, outside the root and not a sibling extension — rejected
with the forbidden message and no write. -/
theorem C5_path_escape_witness :
    publish_article
        [['s', 'r', 'v'], ['b', 'l', 'o', 'g'],
         ['c', 'o', 'n', 't', 'e', 'n', 't']]
        ⟨2025, 1, 1, 0, 0, 0⟩
        ⟨false, [['.', '.'], ['.', '.'], ['e', 't', 'c'],
          ['p', 'a', 's', 's', 'w', 'd']]⟩
        [([['s', 'r', 'v'], ['e', 't', 'c'], ['p', 'a', 's', 's', 'w', 'd']],
          ⟨⟨some true, none, some "T"⟩, "b"⟩)]
      = (false, "访问被拒绝:文件不在允许的目录中",
         [([['s', 'r', 'v'], ['e', 't', 'c'], ['p', 'a', 's', 's', 'w', 'd']],
           ⟨⟨some true, none, some "T"⟩, "b"⟩)]) :=
  C5_path_escape _ _ _ _ (by decide) (by decide) (by decide) (by decide)

/-! ### Claim C6: tag/category filters on the serialised columns. -/

/-- Plain tag characters: lowercase ASCII letters and digits. On these the
serialised form has quotes exactly at element boundaries and `LIKE` compares
exactly. -/
def plainChar (c : Char) : Bool :=
  (97 ≤ c.toNat && c.toNat ≤ 122) || (48 ≤ c.toNat && c.toNat ≤ 57)

/-- The characters that can occur in the serialisation of a list of plain
tags: plain characters, and the code points of `[`, `]`, `,`, space and the
double quote. -/
def serialChar (c : Char) : Bool :=
  plainChar c || c.toNat = 91 || c.toNat = 93 || c.toNat = 44
    || c.toNat = 32 || c.toNat = 34

theorem toNat_ofNat_lt (n : Nat) (h : n < 55296) : (Char.ofNat n).toNat = n := by
  have hv : n.isValidChar := Or.inl h
  simp [Char.ofNat, hv, Char.ofNatAux, Char.toNat, UInt32.toNat, BitVec.toNat_ofNatLt]

theorem char_toNat_inj {a b : Char} (h : a.toNat = b.toNat) : a = b := by
  rw [← Char.ofNat_toNat a, ← Char.ofNat_toNat b, h]

theorem upperAscii_toNat (c : Char) :
    (upperAscii c).toNat
      = if 97 ≤ c.toNat ∧ c.toNat ≤ 122 then c.toNat - 32 else c.toNat := by
  unfold upperAscii
  split
  · next h => exact toNat_ofNat_lt _ (by omega)
  · rfl

/-- On the pattern side (plain characters and the quote) compared against the
serialisation alphabet, the ASCII-case-insensitive comparison of `LIKE` is
exact equality. -/
theorem upperAscii_eq_iff (p c : Char) (hp : plainChar p = true ∨ p = quoteC)
    (hc : serialChar c = true) : upperAscii p = upperAscii c ↔ p = c := by
  constructor
  · intro h
    apply char_toNat_inj
    have hT := congrArg Char.toNat h
    rw [upperAscii_toNat, upperAscii_toNat] at hT
    have hpn : (97 ≤ p.toNat ∧ p.toNat ≤ 122) ∨ (48 ≤ p.toNat ∧ p.toNat ≤ 57)
        ∨ p.toNat = 34 := by
      rcases hp with hp | hp
      · simp [plainChar] at hp
        omega
      · subst hp
        right; right; rfl
    have hcn : (97 ≤ c.toNat ∧ c.toNat ≤ 122) ∨ (48 ≤ c.toNat ∧ c.toNat ≤ 57)
        ∨ c.toNat = 91 ∨ c.toNat = 93 ∨ c.toNat = 44 ∨ c.toNat = 32
        ∨ c.toNat = 34 := by
      simp [serialChar, plainChar] at hc
      omega
    split_ifs at hT <;> omega
  · intro h
    rw [h]

theorem plainChar_ne (c x : Char) (h : plainChar c = true)
    (hx : plainChar x = false) : ¬ c = x :=
  fun he => by rw [he] at h; rw [h] at hx; cases hx

theorem escChar_plain (c : Char) (h : plainChar c = true) : escChar c = [c] := by
  have h1 : ¬ c = quoteC := plainChar_ne c quoteC h (by decide)
  have h2 : ¬ c = backslashC := plainChar_ne c backslashC h (by decide)
  have h3 : ¬ c = Char.ofNat 10 := plainChar_ne c (Char.ofNat 10) h (by decide)
  have h4 : ¬ c = Char.ofNat 9 := plainChar_ne c (Char.ofNat 9) h (by decide)
  have h5 : ¬ c = Char.ofNat 13 := plainChar_ne c (Char.ofNat 13) h (by decide)
  have h6 : ¬ c = Char.ofNat 8 := plainChar_ne c (Char.ofNat 8) h (by decide)
  have h7 : ¬ c = Char.ofNat 12 := plainChar_ne c (Char.ofNat 12) h (by decide)
  have h8 : ¬ c.toNat < 32 := by
    simp [plainChar] at h
    omega
  simp [escChar, h1, h2, h3, h4, h5, h6, h7, h8]

theorem escString_plain (s : List Char) (h : ∀ c ∈ s, plainChar c = true) :
    escString s = s := by
  induction s with
  | nil => rfl
  | cons c s ih =>
    rw [escString_cons, escChar_plain c (h c (by simp)),
      ih (fun d hd => h d (by simp [hd]))]
    rfl

theorem plain_serial (c : Char) (h : plainChar c = true) : serialChar c = true := by
  simp [serialChar, h]

theorem quoteStr_chars (s : List Char) (h : ∀ c ∈ s, plainChar c = true) :
    ∀ c ∈ quoteStr s, serialChar c = true := by
  intro c hc
  rw [quoteStr, escString_plain s h] at hc
  rcases List.mem_cons.mp hc with hc | hc
  · subst hc; decide
  · rcases List.mem_append.mp hc with hc | hc
    · exact plain_serial c (h c hc)
    · rw [List.mem_singleton.mp hc]; decide

theorem sepTail_chars (ts : List String)
    (hts : ∀ s ∈ ts, ∀ c ∈ s.data, plainChar c = true) :
    ∀ c ∈ sepTail ts, serialChar c = true := by
  induction ts with
  | nil => intro c hc; cases hc
  | cons s rest ih =>
    intro c hc
    rw [sepTail] at hc
    rcases List.mem_cons.mp hc with hc | hc
    · subst hc; decide
    · rcases List.mem_cons.mp hc with hc | hc
      · subst hc; decide
      · rcases List.mem_append.mp hc with hc | hc
        · exact quoteStr_chars s.data (hts s (by simp)) c hc
        · exact ih (fun u hu => hts u (by simp [hu])) c hc

theorem dumps_chars (ts : List String)
    (hts : ∀ s ∈ ts, ∀ c ∈ s.data, plainChar c = true) :
    ∀ c ∈ (dumpsList ts).data, serialChar c = true := by
  intro c hc
  have hdata : (dumpsList ts).data = '[' :: (dumpsCore ts ++ [']']) := by
    simp [dumpsList]
  rw [hdata] at hc
  rcases List.mem_cons.mp hc with hc | hc
  · subst hc; decide
  · rcases List.mem_append.mp hc with hc | hc
    · cases ts with
      | nil => cases hc
      | cons s rest =>
        rw [dumpsCore] at hc
        rcases List.mem_append.mp hc with hc | hc
        · exact quoteStr_chars s.data (hts s (by simp)) c hc
        · exact sepTail_chars rest (fun u hu => hts u (by simp [hu])) c hc
    · rw [List.mem_singleton.mp hc]; decide

/-- The charwise (case-insensitive) prefix matcher that `likeMatch` reduces to
on a wildcard-free pattern followed by a final `%`. -/
def likePreB : List Char → List Char → Bool
  | [], _ => true
  | _ :: _, [] => false
  | p :: ps, d :: cs => upperAscii p = upperAscii d && likePreB ps cs

theorem likeMatch_percent (ps cs : List Char) :
    likeMatch ('%' :: ps) cs = cs.tails.any (fun suf => likeMatch ps suf) := by
  simp [likeMatch]

theorem likeMatch_plain_nil (p : Char) (ps : List Char) (h1 : ¬ p = '%') :
    likeMatch (p :: ps) [] = false := by
  simp [likeMatch, h1]

theorem likeMatch_plain_cons (p : Char) (ps : List Char) (d : Char)
    (cs2 : List Char) (h1 : ¬ p = '%') (h2 : ¬ p = '_') :
    likeMatch (p :: ps) (d :: cs2)
      = (decide (upperAscii p = upperAscii d) && likeMatch ps cs2) := by
  simp [likeMatch, h1, h2]

theorem likeMatch_noWild_percent (q : List Char) : ∀ cs : List Char,
    (∀ c ∈ q, ¬ c = '%' ∧ ¬ c = '_') →
    likeMatch (q ++ ['%']) cs = likePreB q cs := by
  induction q with
  | nil =>
    intro cs _
    rw [List.nil_append, likeMatch_percent]
    have hw : [] ∈ cs.tails := (List.mem_tails _ _).mpr List.nil_suffix
    have : cs.tails.any (fun suf => likeMatch [] suf) = true :=
      List.any_eq_true.mpr ⟨[], hw, by rfl⟩
    rw [this]
    rfl
  | cons p q ih =>
    intro cs hq
    have hp := hq p (by simp)
    cases cs with
    | nil => rw [List.cons_append, likeMatch_plain_nil _ _ hp.1]; rfl
    | cons d cs2 =>
      rw [List.cons_append, likeMatch_plain_cons _ _ _ _ hp.1 hp.2,
        ih cs2 (fun c hc => hq c (by simp [hc]))]
      rfl

theorem likePreB_iff_pre (q : List Char) : ∀ cs : List Char,
    (∀ c ∈ q, plainChar c = true ∨ c = quoteC) →
    (∀ c ∈ cs, serialChar c = true) →
    (likePreB q cs = true ↔ ∃ rest, cs = q ++ rest) := by
  induction q with
  | nil =>
    intro cs _ _
    simp [likePreB]
  | cons p q ih =>
    intro cs hq hcs
    cases cs with
    | nil =>
      simp [likePreB]
    | cons d cs2 =>
      have hstep : likePreB (p :: q) (d :: cs2)
          = (decide (upperAscii p = upperAscii d) && likePreB q cs2) := rfl
      rw [hstep, Bool.and_eq_true, decide_eq_true_eq,
        upperAscii_eq_iff p d (hq p (by simp)) (hcs d (by simp)),
        ih cs2 (fun c hc => hq c (by simp [hc])) (fun c hc => hcs c (by simp [hc]))]
      constructor
      · rintro ⟨hpd, rest, hrest⟩
        exact ⟨rest, by rw [List.cons_append, ← hpd, hrest]⟩
      · rintro ⟨rest, hrest⟩
        rw [List.cons_append] at hrest
        injection hrest with ha hb
        exact ⟨ha.symm, rest, hb⟩

/-- `q` occurs contiguously inside `s`. -/
def infixOf (q s : List Char) : Prop := ∃ u v, s = u ++ q ++ v

theorem infixOf_cons_elim {q s : List Char} {a : Char} (h : infixOf q (a :: s)) :
    (∃ v, a :: s = q ++ v) ∨ infixOf q s := by
  obtain ⟨u, v, huv⟩ := h
  cases u with
  | nil => exact Or.inl ⟨v, by simpa using huv⟩
  | cons b u2 =>
    rw [List.cons_append, List.cons_append] at huv
    injection huv with h1 h2
    exact Or.inr ⟨u2, v, by simpa using h2⟩

theorem infixOf_peel {q s : List Char} {a : Char} (hq : q.head? = some quoteC)
    (ha : ¬ a = quoteC) (h : infixOf q (a :: s)) : infixOf q s := by
  rcases infixOf_cons_elim h with ⟨v, hv⟩ | h2
  · cases q with
    | nil => simp at hq
    | cons qh qt =>
      simp only [List.head?] at hq
      injection hq with hq2
      rw [List.cons_append] at hv
      injection hv with h1 h2
      exact absurd (h1.trans hq2) ha
  · exact h2

theorem infixOf_skip (e : List Char) : ∀ (r q : List Char),
    q.head? = some quoteC → (∀ c ∈ e, ¬ c = quoteC) →
    infixOf q (e ++ r) → infixOf q r := by
  induction e with
  | nil => intro r q _ _ h; simpa using h
  | cons d e2 ih =>
    intro r q hq he h
    rw [List.cons_append] at h
    exact ih r q hq (fun c hc => he c (by simp [hc]))
      (infixOf_peel hq (he d (by simp)) h)

theorem infixOf_append_left (Y : List Char) {q X : List Char}
    (h : infixOf q X) : infixOf q (Y ++ X) := by
  obtain ⟨u, v, huv⟩ := h
  exact ⟨Y ++ u, v, by rw [huv]; simp⟩

/-- If two quote-free segments are each immediately followed by a quote in the
same character list, they are the same segment. -/
theorem seg_eq (e : List Char) : ∀ (t sep v : List Char),
    (∀ c ∈ t, ¬ c = quoteC) → (∀ c ∈ e, ¬ c = quoteC) →
    e ++ quoteC :: sep = t ++ quoteC :: v → t = e := by
  induction e with
  | nil =>
    intro t sep v ht _ h
    cases t with
    | nil => rfl
    | cons c t2 =>
      rw [List.nil_append, List.cons_append] at h
      injection h with h1 h2
      exact absurd h1.symm (ht c (by simp))
  | cons d e2 ih =>
    intro t sep v ht he h
    cases t with
    | nil =>
      rw [List.cons_append, List.nil_append] at h
      injection h with h1 h2
      exact absurd h1 (he d (by simp))
    | cons c t2 =>
      rw [List.cons_append, List.cons_append] at h
      injection h with h1 h2
      rw [ih t2 sep v (fun x hx => ht x (by simp [hx]))
        (fun x hx => he x (by simp [hx])) h2, h1]

/-- Core combinatorial fact: for a non-empty plain filter string and plain
tags, the quoted filter occurs inside the serialised list (brackets stripped,
closing bracket kept) exactly when it is one of the elements. -/
theorem inf_core_iff (ts : List String) : ∀ t : String, t.data ≠ [] →
    (∀ c ∈ t.data, plainChar c = true) →
    (∀ s ∈ ts, ∀ c ∈ s.data, plainChar c = true) →
    (infixOf (quoteC :: t.data ++ [quoteC]) (dumpsCore ts ++ [']']) ↔ t ∈ ts) := by
  induction ts with
  | nil =>
    intro t htne htp _
    simp only [dumpsCore, List.nil_append, List.not_mem_nil, iff_false]
    rintro ⟨u, v, h⟩
    have hlen := congrArg List.length h
    have hpos : 0 < t.data.length := List.length_pos.mpr htne
    simp [List.length_append] at hlen
    omega
  | cons s rest ih =>
    intro t htne htp hts
    have ht_ne : ∀ c ∈ t.data, ¬ c = quoteC :=
      fun c hc => plainChar_ne c quoteC (htp c hc) (by decide)
    have hs_ne : ∀ c ∈ s.data, ¬ c = quoteC :=
      fun c hc => plainChar_ne c quoteC (hts s (by simp) c hc) (by decide)
    have hsesc : escString s.data = s.data := escString_plain _ (hts s (by simp))
    have hexpand : dumpsCore (s :: rest) ++ [']']
        = quoteC :: (s.data ++ quoteC :: (sepTail rest ++ [']'])) := by
      simp [dumpsCore, quoteStr, hsesc]
    rw [hexpand]
    constructor
    · intro hinf
      rcases infixOf_cons_elim hinf with ⟨v, hv⟩ | hrest
      · rw [show (quoteC :: t.data ++ [quoteC]) ++ v
            = quoteC :: (t.data ++ quoteC :: v) from by simp] at hv
        injection hv with h1 h2
        have hds := seg_eq s.data t.data _ v ht_ne hs_ne h2
        have : t = s := by
          obtain ⟨td⟩ := t
          obtain ⟨sd⟩ := s
          exact congrArg String.mk (by simpa using hds)
        exact List.mem_cons.mpr (Or.inl this)
      · have hskip := infixOf_skip s.data _ _
          (show (quoteC :: t.data ++ [quoteC]).head? = some quoteC from rfl)
          hs_ne hrest
        rcases infixOf_cons_elim hskip with ⟨v, hv⟩ | hrest2
        · rw [show (quoteC :: t.data ++ [quoteC]) ++ v
              = quoteC :: (t.data ++ quoteC :: v) from by simp] at hv
          injection hv with h1 h2
          cases rest with
          | nil =>
            simp only [sepTail, List.nil_append] at h2
            have hlen := congrArg List.length h2
            have hpos : 0 < t.data.length := List.length_pos.mpr htne
            simp only [List.length_cons, List.length_append,
              List.length_nil] at hlen
            omega
          | cons s2 r2 =>
            rw [sepTail] at h2
            cases htd : t.data with
            | nil => exact absurd htd htne
            | cons c t2 =>
              rw [htd, List.cons_append, List.cons_append] at h2
              injection h2 with ha hb
              have hcp := htp c (by rw [htd]; simp)
              exact absurd ha.symm (plainChar_ne c ',' hcp (by decide))
        · cases rest with
          | nil =>
            simp only [sepTail, List.nil_append] at hrest2
            obtain ⟨u, v, h⟩ := hrest2
            have hlen := congrArg List.length h
            simp only [List.length_cons, List.length_append,
              List.length_nil] at hlen
            omega
          | cons s2 r2 =>
            have hst : sepTail (s2 :: r2) ++ [']']
                = ',' :: ' ' :: (dumpsCore (s2 :: r2) ++ [']']) := by
              simp [sepTail, dumpsCore]
            rw [hst] at hrest2
            have h1 := infixOf_peel
              (show (quoteC :: t.data ++ [quoteC]).head? = some quoteC from rfl)
              (by decide) hrest2
            have h2 := infixOf_peel
              (show (quoteC :: t.data ++ [quoteC]).head? = some quoteC from rfl)
              (by decide) h1
            have hmem := (ih t htne htp (fun u hu => hts u (by simp [hu]))).mp h2
            exact List.mem_cons_of_mem _ hmem
    · intro hmem
      rcases List.mem_cons.mp hmem with heq | hmem2
      · refine ⟨[], sepTail rest ++ [']'], ?_⟩
        subst heq
        simp
      · have hsub := (ih t htne htp (fun u hu => hts u (by simp [hu]))).mpr hmem2
        cases rest with
        | nil => cases hmem2
        | cons s2 r2 =>
          have hY : quoteC :: (s.data ++ quoteC :: (sepTail (s2 :: r2) ++ [']']))
              = (quoteC :: s.data ++ [quoteC, ',', ' '])
                ++ (dumpsCore (s2 :: r2) ++ [']']) := by
            simp [sepTail, dumpsCore]
          rw [hY]
          exact infixOf_append_left _ hsub

/-- The `LIKE '%"{t}"%'` test of `search_posts` on a serialised list of plain
tags is exact element membership, for a non-empty plain filter string. -/
theorem tagLike_iff (t : String) (ts : List String) (ht : ¬ t = "")
    (htp : ∀ c ∈ t.data, plainChar c = true)
    (hts : ∀ s ∈ ts, ∀ c ∈ s.data, plainChar c = true) :
    (likeMatch (quotedPattern t) (dumpsList ts).data = true ↔ t ∈ ts) := by
  have htd : t.data ≠ [] := fun h => ht (congrArg String.mk h)
  have hnw : ∀ c ∈ quoteC :: t.data ++ [quoteC], ¬ c = '%' ∧ ¬ c = '_' := by
    intro c hc
    rcases List.mem_cons.mp hc with hc | hc
    · subst hc; exact ⟨by decide, by decide⟩
    · rcases List.mem_append.mp hc with hc | hc
      · exact ⟨plainChar_ne c '%' (htp c hc) (by decide),
          plainChar_ne c '_' (htp c hc) (by decide)⟩
      · rw [List.mem_singleton.mp hc]; exact ⟨by decide, by decide⟩
  have hok : ∀ c ∈ quoteC :: t.data ++ [quoteC],
      plainChar c = true ∨ c = quoteC := by
    intro c hc
    rcases List.mem_cons.mp hc with hc | hc
    · exact Or.inr hc
    · rcases List.mem_append.mp hc with hc | hc
      · exact Or.inl (htp c hc)
      · exact Or.inr (List.mem_singleton.mp hc)
  have hdata : (dumpsList ts).data = '[' :: (dumpsCore ts ++ [']']) := rfl
  have hq : quotedPattern t
      = '%' :: ((quoteC :: t.data ++ [quoteC]) ++ ['%']) := by
    simp [quotedPattern]
  rw [hq, likeMatch_percent]
  constructor
  · intro hm
    obtain ⟨suf, hsufmem, hmf⟩ := List.any_eq_true.mp hm
    obtain ⟨u, hu⟩ := (List.mem_tails _ _).mp hsufmem
    have hsufChars : ∀ c ∈ suf, serialChar c = true := fun c hc =>
      dumps_chars ts hts c (by rw [← hu]; exact List.mem_append.mpr (Or.inr hc))
    rw [likeMatch_noWild_percent _ suf hnw] at hmf
    obtain ⟨rest, hrest⟩ := (likePreB_iff_pre _ suf hok hsufChars).mp hmf
    have hinf : infixOf (quoteC :: t.data ++ [quoteC])
        ('[' :: (dumpsCore ts ++ [']'])) := by
      refine ⟨u, rest, ?_⟩
      rw [← hdata, ← hu, hrest]
      simp
    exact (inf_core_iff ts t htd htp hts).mp
      (infixOf_peel (show (quoteC :: t.data ++ [quoteC]).head? = some quoteC
        from rfl) (by decide) hinf)
  · intro hmem
    obtain ⟨u, v, huv⟩ := (inf_core_iff ts t htd htp hts).mpr hmem
    refine List.any_eq_true.mpr ⟨(quoteC :: t.data ++ [quoteC]) ++ v, ?_, ?_⟩
    · refine (List.mem_tails _ _).mpr ⟨'[' :: u, ?_⟩
      show ('[' :: u) ++ ((quoteC :: t.data ++ [quoteC]) ++ v)
        = (dumpsList ts).data
      rw [hdata, huv]
      simp
    · rw [likeMatch_noWild_percent _ _ hnw]
      refine (likePreB_iff_pre _ _ hok ?_).mpr ⟨v, rfl⟩
      intro c hc
      rcases List.mem_append.mp hc with hc | hc
      · rcases List.mem_cons.mp hc with hc | hc
        · subst hc; decide
        · rcases List.mem_append.mp hc with hc | hc
          · exact plain_serial c (htp c hc)
          · rw [List.mem_singleton.mp hc]; decide
      · apply dumps_chars ts hts
        rw [hdata, huv]
        simp [hc]

/-- Counterexample to claim C6 as stated: SQLite `LIKE` is ASCII
case-insensitive, so searching with tag filter `"ENG"` returns a record whose
only tag is `"eng"`, although `"ENG"` is not an element of that record's tags
sequence. -/
theorem C6_counterexample :
    (search_posts "" "" "ENG"
      [{ file_path := "p", relative_path := "p", title := "x", date := "",
         description := "", excerpt := "", tags := dumpsList ["eng"],
         categories := dumpsList [], mod_time := 0, cached_at := 0 }]).length = 1
    ∧ ¬ ("ENG" ∈ (["eng"] : List String)) := by
  decide

/-- Claim C6, amended: for a non-empty filter string of plain characters
(lowercase ASCII letters and digits) over records whose tags and categories
are serialisations of lists of plain strings, the tag search and the category
search each return exactly the records whose decoded tags (respectively
categories) sequence contains the filter string as an element. In particular
the filter `"eng"` does not match a record whose only tag is
`"engineering"`. -/
theorem C6_tag_membership (t : String) (db : List Row) (ht : ¬ t = "")
    (htp : ∀ c ∈ t.data, plainChar c = true)
    (htags : ∀ r ∈ db, ∃ ts, r.tags = dumpsList ts
      ∧ ∀ s ∈ ts, ∀ c ∈ s.data, plainChar c = true)
    (hcats : ∀ r ∈ db, ∃ ts, r.categories = dumpsList ts
      ∧ ∀ s ∈ ts, ∀ c ∈ s.data, plainChar c = true) :
    search_posts "" "" t db
      = (db.filter
          (fun r => decide (t ∈ (loadsList r.tags).getD []))).map row_to_dict
    ∧ search_posts "" t "" db
      = (db.filter
          (fun r => decide (t ∈ (loadsList r.categories).getD []))).map
        row_to_dict := by
  have h1 : (decide (("" : String) = "") : Bool) = true := rfl
  have h2 : decide (t = "") = false := decide_eq_false ht
  constructor
  · unfold search_posts
    congr 1
    apply List.filter_congr
    intro r hr
    obtain ⟨ts, htse, hplain⟩ := htags r hr
    rw [htse, loads_dumps]
    simp only [h1, h2, decide_True, Bool.true_or, Bool.false_or,
      Bool.true_and, Bool.and_true, Bool.and_false, Option.getD_some]
    cases hb : likeMatch (quotedPattern t) (dumpsList ts).data
    · have hnm : ¬ t ∈ ts := fun hm => by
        rw [(tagLike_iff t ts ht htp hplain).mpr hm] at hb
        exact Bool.noConfusion hb
      rw [decide_eq_false hnm]
    · rw [decide_eq_true ((tagLike_iff t ts ht htp hplain).mp hb)]
  · unfold search_posts
    congr 1
    apply List.filter_congr
    intro r hr
    obtain ⟨ts, htse, hplain⟩ := hcats r hr
    rw [htse, loads_dumps]
    simp only [h1, h2, decide_True, Bool.true_or, Bool.false_or,
      Bool.true_and, Bool.and_true, Bool.and_false, Option.getD_some]
    cases hb : likeMatch (quotedPattern t) (dumpsList ts).data
    · have hnm : ¬ t ∈ ts := fun hm => by
        rw [(tagLike_iff t ts ht htp hplain).mpr hm] at hb
        exact Bool.noConfusion hb
      rw [decide_eq_false hnm]
    · rw [decide_eq_true ((tagLike_iff t ts ht htp hplain).mp hb)]

theorem C6_tag_membership_witness :
    search_posts "" "" "eng"
      [{ file_path := "p", relative_path := "p", title := "x", date := "",
         description := "", excerpt := "", tags := dumpsList ["engineering"],
         categories := dumpsList [], mod_time := 0, cached_at := 0 }] = [] := by
  have h := C6_tag_membership "eng"
    [{ file_path := "p", relative_path := "p", title := "x", date := "",
       description := "", excerpt := "", tags := dumpsList ["engineering"],
       categories := dumpsList [], mod_time := 0, cached_at := 0 }]
    (by decide) (by decide)
    (fun r hr => by
      rw [List.mem_singleton.mp hr]
      exact ⟨["engineering"], rfl, by decide⟩)
    (fun r hr => by
      rw [List.mem_singleton.mp hr]
      exact ⟨[], rfl, by decide⟩)
  rw [h.1]
  rfl
